import Mathlib

set_option maxRecDepth 8192

/-!
Shallow embedding of the yacm dependency resolver (Go) in Lean 4.

Go strings are modelled as lists of characters (`Str`), Go maps as
association lists in iteration order, and the effectful environment
(index lookups, downloads, metadata extraction) as explicit function
parameters.  Every definition is translated from the Go source; the
snapshot input parser (see `parseLine`) is translated from
`Parser.Parse` of the `snapshot` package.
-/

namespace Yacm

/-- Characters of a Go string. -/
abbrev Str := List Char

/-- View a Lean string literal as a `Str`. -/
def s2l (s : String) : Str := s.data

/-- Whitespace characters recognised by `strings.TrimSpace` (ASCII subset). -/
def isSpaceC (c : Char) : Bool :=
  c == ' ' || c == '\t' || c == '\n' || c == '\r'

/-- Remove leading whitespace (left half of `strings.TrimSpace`). -/
def trimLeft (s : Str) : Str := s.dropWhile isSpaceC

/-- Remove trailing whitespace (right half of `strings.TrimSpace`). -/
def trimRight : Str → Str
  | [] => []
  | c :: cs =>
    match trimRight cs with
    | [] => if isSpaceC c then [] else [c]
    | d :: ds => c :: d :: ds

/-- `strings.TrimSpace`. -/
def trim (s : Str) : Str := trimLeft (trimRight s)

/-- `strings.Split` with a one-character separator. -/
def splitOnC (sep : Char) : Str → List Str
  | [] => [[]]
  | c :: cs =>
    match splitOnC sep cs with
    | [] => [[c]]
    | h :: t => if c = sep then [] :: h :: t else (c :: h) :: t

/-- `strings.HasPrefix s p`. -/
def strStarts (s p : Str) : Bool := List.isPrefixOf p s

/-- `strings.HasSuffix s p`. -/
def strEnds (s p : Str) : Bool := List.isSuffixOf p s

/-- `strings.TrimPrefix s p`. -/
def trimPfxGo (s p : Str) : Str := if strStarts s p then s.drop p.length else s

/-- `strings.TrimSuffix s p`. -/
def trimSfxGo (s p : Str) : Str :=
  if strEnds s p then s.take (s.length - p.length) else s

/-- Index of the first occurrence of a character (`strings.Index` with a
one-character needle). -/
def indexOfC (sep : Char) : Str → Option Nat
  | [] => none
  | c :: cs => if c = sep then some 0 else (indexOfC sep cs).map (· + 1)

/-- Index of the first occurrence of a substring (`strings.Index`). -/
def indexOfSub : Str → Str → Option Nat
  | [], pat => if strStarts [] pat then some 0 else none
  | c :: tl, pat =>
    if strStarts (c :: tl) pat then some 0
    else (indexOfSub tl pat).map (· + 1)

/-- Numeric value of a digit string. -/
def digitsVal (l : Str) : Nat := l.foldl (fun a c => a * 10 + (c.toNat - 48)) 0

/-- All characters are ASCII digits. -/
def allDigits (l : Str) : Bool := l.all (fun c => c.isDigit)

/-- `strconv.Atoi` with the error ignored, as the Go callers do: an invalid
string yields 0. -/
def atoiGo (s : Str) : Int :=
  match s with
  | '-' :: rest =>
    if rest ≠ [] && allDigits rest then -(digitsVal rest : Int) else 0
  | '+' :: rest =>
    if rest ≠ [] && allDigits rest then (digitsVal rest : Int) else 0
  | _ => if s ≠ [] && allDigits s then (digitsVal s : Int) else 0

/-- Lexicographic order on Go strings (`<` on `string`). -/
def ltStr : Str → Str → Bool
  | [], [] => false
  | [], _ :: _ => true
  | _ :: _, [] => false
  | a :: as0, b :: bs =>
    if a < b then true else if b < a then false else ltStr as0 bs

/-- Association-list lookup, modelling a read `m[k]` that distinguishes
presence (`value, ok := m[k]`). -/
def lookupA {β : Type} : List (Str × β) → Str → Option β
  | [], _ => none
  | (k1, v1) :: rest, k => if k1 = k then some v1 else lookupA rest k

/-- Go map read `m[k]` on a `map[string]string`: missing keys yield `""`. -/
def lookupD (m : List (Str × Str)) (k : Str) : Str := (lookupA m k).getD []

/-- Key-presence test `_, ok := m[k]`. -/
def containsKeyA {β : Type} (m : List (Str × β)) (k : Str) : Bool :=
  (lookupA m k).isSome

/-- Go map write `m[k] = v`: overwrite the binding if present, else add it. -/
def setA {β : Type} : List (Str × β) → Str → β → List (Str × β)
  | [], k, v => [(k, v)]
  | (k1, v1) :: rest, k, v =>
    if k1 = k then (k1, v) :: rest else (k1, v1) :: setA rest k v

/-! ## Resolver version algebra (internal/resolver/resolver.go) -/

/-- Structural worker for `chunks3`; the first argument is the length of
the second, so the recursion reduces definitionally. -/
def chunks3Aux : Nat → Str → List Int
  | 0, _ => []
  | _, [] => []
  | n + 1, c :: cs =>
    atoiGo ((c :: cs).take 3) :: chunks3Aux n ((c :: cs).drop 3)

/-- The inner loop of `normalizeVersion`'s decimal branch: split the
fractional part into groups of three digits, left to right. -/
def chunks3 (frac : Str) : List Int := chunks3Aux frac.length frac

/-- `normalizeVersion` of the resolver: convert a Perl version string to a
sequence of integers (dotted format, or decimal format when there are
exactly two components and the fractional one is longer than 3 digits). -/
def normalizeVersion (v0 : Str) : List Int :=
  let v := trimPfxGo v0 (s2l "v")
  if v = [] then [0]
  else
    match splitOnC '.' v with
    | [p] => [atoiGo p]
    | [a, b] =>
      if b.length > 3 then atoiGo a :: chunks3 b
      else [atoiGo a, atoiGo b]
    | parts => parts.map atoiGo

/-- Comparison of the remaining components against an exhausted (all-zero
padded) side: the first nonzero remaining component decides. -/
def cmpTailZero : List Int → Int
  | [] => 0
  | b :: bs => if (0 : Int) < b then -1 else if b < 0 then 1 else cmpTailZero bs

/-- The comparison loop of `compareVersions`: lexicographic comparison of
integer sequences, the shorter one padded with zeros. -/
def cmpIntList : List Int → List Int → Int
  | [], ys => cmpTailZero ys
  | a :: as0, [] => if a < 0 then -1 else if (0 : Int) < a then 1 else cmpIntList as0 []
  | a :: as0, b :: bs => if a < b then -1 else if b < a then 1 else cmpIntList as0 bs

/-- `compareVersions` of the resolver. -/
def compareVersions (a b : Str) : Int :=
  cmpIntList (normalizeVersion a) (normalizeVersion b)

/-- `satisfiesOne`: check one constraint clause against a version. -/
def satisfiesOne (hv want0 : Str) : Bool :=
  let want := trim want0
  if want = [] || want = s2l "0" then true
  else
    let ow : Str × Str :=
      if strStarts want (s2l ">=") then (s2l ">=", trim (want.drop 2))
      else if strStarts want (s2l "<=") then (s2l "<=", trim (want.drop 2))
      else if strStarts want (s2l "!=") then (s2l "!=", trim (want.drop 2))
      else if strStarts want (s2l ">") then (s2l ">", trim (want.drop 1))
      else if strStarts want (s2l "<") then (s2l "<", trim (want.drop 1))
      else if strStarts want (s2l "==") then (s2l "==", trim (want.drop 2))
      else (s2l ">=", want)
    let c := compareVersions hv ow.2
    if ow.1 = s2l ">=" then decide (c ≥ 0)
    else if ow.1 = s2l ">" then decide (c > 0)
    else if ow.1 = s2l "<=" then decide (c ≤ 0)
    else if ow.1 = s2l "<" then decide (c < 0)
    else if ow.1 = s2l "==" then decide (c = 0)
    else if ow.1 = s2l "!=" then decide (c ≠ 0)
    else true

/-- `satisfies`: a comma-separated constraint list, every clause must hold;
`""` and `"0"` constraints always hold; an `undef` version satisfies
everything. -/
def satisfies (hv0 want : Str) : Bool :=
  if want = [] || want = s2l "0" then true
  else if hv0 = s2l "undef" then true
  else
    let hv := if hv0 = [] then s2l "0" else hv0
    (splitOnC ',' want).all (fun c => satisfiesOne hv (trim c))

/-! ## Core module set and resolver model (internal/resolver/resolver.go) -/

/-- The static `coreModules` set, transcribed from the Go source. -/
def coreModules : List String :=
  [
    "perl", "strict", "warnings", "utf8", "base", "parent", "constant", 
    "overload", "lib", "vars", "integer", "bytes", "feature", "if", "mro", 
    "re", "locale", "open", "subs", "fields", "bignum", "bigint", "bigrat", 
    "AnyDBM_File", "AutoLoader", "AutoSplit", "B", "B::Deparse", "Benchmark", 
    "Carp", "Carp::Heavy", "Class::Struct", "Config", "Config::Extensions", 
    "Cwd", "DB", "DBM_Filter", "Data::Dumper", "Devel::Peek", 
    "Devel::SelfStubber", "Digest", "Digest::MD5", "DirHandle", "Dumpvalue", 
    "DynaLoader", "Encode", "Encode::Alias", "Encode::Config", 
    "Encode::Encoding", "Encode::Guess", "Encode::MIME::Header", "English", 
    "Env", "Errno", "Exporter", "Exporter::Heavy", "ExtUtils::Constant", 
    "ExtUtils::Embed", "ExtUtils::Install", "ExtUtils::Installed", 
    "ExtUtils::Liblist", "ExtUtils::MM", "ExtUtils::MM_Any", 
    "ExtUtils::MM_Unix", "ExtUtils::MY", "ExtUtils::Manifest", 
    "ExtUtils::Miniperl", "ExtUtils::Mkbootstrap", "ExtUtils::Mksymlists", 
    "ExtUtils::Packlist", "ExtUtils::testlib", "Fcntl", "File::Basename", 
    "File::Compare", "File::Copy", "File::DosGlob", "File::Find", 
    "File::Glob", "File::Path", "File::Spec", "File::Spec::Functions", 
    "File::Spec::Unix", "File::Stat", "File::stat", "File::Temp", 
    "FileCache", "FileHandle", "Filter::Simple", "Filter::Util::Call", 
    "FindBin", "GDBM_File", "Getopt::Long", "Getopt::Std", "Hash::Util", 
    "Hash::Util::FieldHash", "I18N::Collate", "I18N::LangTags", 
    "I18N::Langinfo", "IO", "IO::Dir", "IO::File", "IO::Handle", "IO::Pipe", 
    "IO::Poll", "IO::Seekable", "IO::Select", "IO::Socket", 
    "IO::Socket::INET", "IO::Socket::UNIX", "IPC::Cmd", "IPC::Msg", 
    "IPC::Open2", "IPC::Open3", "IPC::Semaphore", "IPC::SharedMem", 
    "IPC::SysV", "List::Util", "List::Util::XS", "Locale::Maketext", 
    "MIME::Base64", "MIME::QuotedPrint", "Math::BigFloat", "Math::BigInt", 
    "Math::BigRat", "Math::Complex", "Math::Trig", "Memoize", "NDBM_File", 
    "Net::Cmd", "Net::Config", "Net::Domain", "Net::FTP", "Net::NNTP", 
    "Net::Netrc", "Net::POP3", "Net::Ping", "Net::SMTP", "Net::Time", 
    "Net::hostent", "Net::netent", "Net::protoent", "Net::servent", "O", 
    "Opcode", "ODBM_File", "OS2::Process", "PerlIO", "PerlIO::encoding", 
    "PerlIO::scalar", "PerlIO::via", "PerlIO::via::QuotedPrint", 
    "Pod::Checker", "Pod::Find", "Pod::Functions", "Pod::Html", 
    "Pod::InputObjects", "Pod::Man", "Pod::ParseLink", "Pod::ParseUtils", 
    "Pod::Parser", "Pod::Perldoc", "Pod::PlainText", "Pod::Select", 
    "Pod::Simple", "Pod::Text", "Pod::Usage", "POSIX", "SDBM_File", "Safe", 
    "Scalar::Util", "Search::Dict", "SelectSaver", "SelfLoader", "Socket", 
    "Storable", "Sub::Util", "Symbol", "Sys::Hostname", "Sys::Syslog", 
    "Term::ANSIColor", "Term::Cap", "Term::Complete", "Term::ReadLine", 
    "Test", "Test::Builder", "Test::Builder::Module", 
    "Test::Builder::Tester", "Test::Harness", "Test::More", "Test::Simple", 
    "Text::Abbrev", "Text::Balanced", "Text::ParseWords", "Text::Tabs", 
    "Text::Wrap", "Thread", "Thread::Queue", "Thread::Semaphore", 
    "Tie::Array", "Tie::File", "Tie::Handle", "Tie::Hash", "Tie::Memoize", 
    "Tie::RefHash", "Tie::Scalar", "Tie::StdHandle", "Tie::SubstrHash", 
    "Time::HiRes", "Time::Local", "Time::Piece", "Time::Seconds", 
    "Time::gmtime", "Time::localtime", "Time::tm", "UNIVERSAL", 
    "Unicode::Collate", "Unicode::Normalize", "Unicode::UCD", "User::grent", 
    "User::pwent", "XSLoader", "version", "threads", "threads::shared", 
    "encoding", "encoding::warnings"
  ]

/-- `isCore`. -/
def isCore (m : Str) : Bool := coreModules.any (fun s => s.data = m)

/-- Removal of a key from a set of strings (`delete(m, key)` on a
`map[string]bool` used as a set). -/
def removeStr (l : List Str) (x : Str) : List Str :=
  l.filter (fun y => decide (y ≠ x))

/-- `extractPathname`: the suffix after `/authors/id/` when present, else the
last `/`-separated component. -/
def extractPathname (url : Str) : Str :=
  match indexOfSub url (s2l "/authors/id/") with
  | some i => url.drop (i + (s2l "/authors/id/").length)
  | none => (splitOnC '/' url).getLastD []

/-- `filepath.Base` for the slash-separated relative paths used here. -/
def baseNameGo (p : Str) : Str := (splitOnC '/' p).getLastD []

/-- `distNameFromPath`: tarball basename with the archive suffix stripped. -/
def distNameFromPath (pathname : Str) : Str :=
  trimSfxGo (trimSfxGo (baseNameGo pathname) (s2l ".tar.gz")) (s2l ".tgz")

/-- `Downloader.CachePath`: `filepath.Join(cacheDir, pathname)`. -/
def cachePath (cacheDir pathname : Str) : Str := cacheDir ++ '/' :: pathname

/-- `extractor.ProvidesEntry`. -/
structure ProvidesEntryR where
  file : Str
  version : Str
deriving DecidableEq

/-- `extractor.MetaFile` as the resolver consumes it: identity, provided
modules, and the flattened requirements. -/
structure MetaFileR where
  name : Str
  version : Str
  provides : List (Str × ProvidesEntryR)
  requirements : List (Str × Str)
deriving DecidableEq

/-- `dist.CPANIndex`: one entry of the primary index. -/
structure IndexEntryR where
  module : Str
  version : Str
  pathname : Str
deriving DecidableEq

/-- `dist.Dist`: the distribution record. -/
structure DistR where
  name : Str
  pathname : Str
  provides : List (Str × Str)
  requirements : List (Str × Str)
  source : Str
deriving DecidableEq

/-- The effectful surroundings of one resolver instance: index lookups,
BackPAN queries, the download step and metadata extraction, each keyed the
way the Go code keys them. -/
structure EnvR where
  cpan : Str → Option IndexEntryR
  mirror : Str
  backpan : Str → Str → Option Str
  backpanLocal : Str → Str
  cacheDir : Str
  download : Str → Str → Bool
  extract : Str → Option MetaFileR

/-- The resolver's mutable maps `resolved` and `resolving`. -/
structure StateR where
  resolved : List (Str × DistR)
  resolving : List Str
deriving DecidableEq

/-- The minimal metadata the resolver substitutes when extraction fails. -/
def mkMinimalMeta (pathname module version : Str) : MetaFileR :=
  { name := distNameFromPath pathname
  , version := []
  , provides := [(module, ⟨[], version⟩)]
  , requirements := [] }

/-- Record construction in `resolveOne`: populate provides from the
metadata and ensure the main module is in provides. -/
def buildDist (pathname source module : Str) (meta : MetaFileR) : DistR :=
  let provides0 := meta.provides.foldl (fun acc p => setA acc p.1 p.2.version) []
  let provides :=
    if containsKeyA provides0 module then provides0
    else provides0 ++ [(module, meta.version)]
  { name := distNameFromPath pathname
  , pathname := pathname
  , provides := provides
  , requirements := meta.requirements
  , source := source }

/-- The provides loop of `resolveOne`: also mark the record under every
provided module that is not already bound. -/
def bindProvides (resolved : List (Str × DistR)) (d : DistR) : List (Str × DistR) :=
  d.provides.foldl
    (fun acc p => if containsKeyA acc p.1 then acc else acc ++ [(p.1, d)]) resolved

/-- The middle of `resolveOne`: source selection (CPAN first, BackPAN as
fallback), download, metadata extraction with the minimal-metadata fallback,
and record construction.  `none` is the error path. -/
def fetchRecord (env : EnvR) (module version : Str) : Option DistR :=
  let sel : Option (Str × Str × Str) :=
    match env.cpan module with
    | some entry =>
      if satisfies entry.version version then
        some (env.mirror ++ s2l "/authors/id/" ++ entry.pathname,
              entry.pathname, s2l "cpan")
      else
        match env.backpan module version with
        | some url => some (url, extractPathname url, s2l "backpan")
        | none => none
    | none =>
      match env.backpan module version with
      | some url => some (url, extractPathname url, s2l "backpan")
      | none => none
  match sel with
  | none => none
  | some (url, pathname, source) =>
    let destPath :=
      if source = s2l "cpan" then cachePath env.cacheDir pathname
      else env.backpanLocal url
    if env.download url destPath then
      let meta :=
        match env.extract destPath with
        | some m => m
        | none => mkMinimalMeta pathname module version
      some (buildDist pathname source module meta)
    else none

/-- `resolveOne`, with a fuel parameter bounding the recursion depth (the Go
code recurses without an explicit bound); exhausted fuel is an error.
Early exits: core modules, an already-bound record whose provided version
satisfies the constraint, and modules already on the resolving stack.
Otherwise the module is marked resolving, a record is fetched and bound
(first under the requested module, then under every unbound provided
module), dependencies are resolved recursively, and the resolving mark is
dropped on exit. -/
def resolveOne : Nat → EnvR → StateR → Str → Str → Option StateR
  | 0, _, _, _, _ => none
  | fuel + 1, env, st, module, version =>
    if isCore module then some st
    else if (match lookupA st.resolved module with
             | some d => satisfies (lookupD d.provides module) version
             | none => false) then some st
    else if module ∈ st.resolving then some st
    else
      let resolving1 := module :: st.resolving
      match fetchRecord env module version with
      | none => none
      | some d =>
        let resolved1 := setA st.resolved module d
        let resolved2 := bindProvides resolved1 d
        match d.requirements.foldl
            (fun acc p =>
              match acc with
              | none => none
              | some st2 => resolveOne fuel env st2 p.1 p.2)
            (some (⟨resolved2, resolving1⟩ : StateR)) with
        | none => none
        | some st3 => some ⟨st3.resolved, removeStr st3.resolving module⟩

/-- The loop of `Resolve`: resolve each top-level requirement in order,
aborting on the first error. -/
def resolveAll (fuel : Nat) (env : EnvR) (reqs : List (Str × Str)) :
    Option StateR :=
  reqs.foldl
    (fun acc p =>
      match acc with
      | none => none
      | some st => resolveOne fuel env st p.1 p.2)
    (some (⟨[], []⟩ : StateR))

/-- `Resolve`: the records are the values of the resolved map. -/
def Resolve (fuel : Nat) (env : EnvR) (reqs : List (Str × Str)) :
    Option (List DistR) :=
  (resolveAll fuel env reqs).map (fun st => st.resolved.map (fun p => p.2))

/-! ## Metadata extractor model (internal/extractor) -/

/-- A decoded JSON/YAML scalar as `versionString` receives it: a string, a
number carrying its Go-formatted representation, or anything else. -/
inductive MVal
  | mstr (s : Str)
  | mnum (rep : Str)
  | mother
deriving DecidableEq

/-- `versionString`: coerce a decoded value to a version string. -/
def versionString : MVal → Str
  | .mstr s => s
  | .mnum rep => rep
  | .mother => s2l "0"

/-- The value under one dependency type of `prereqs.<phase>`: either a
decoded map or some other shape (which the Go type assertion rejects). -/
inductive PrereqVal
  | pmap (m : List (Str × MVal))
  | pother
deriving DecidableEq

/-- The raw metadata fields that `flattenPrereqs` consumes. -/
structure MetaRawR where
  prereqs : List (Str × List (Str × PrereqVal))
  requires : List (Str × MVal)
  buildRequires : List (Str × MVal)
  configureRequires : List (Str × MVal)
  alienShare : List (Str × MVal)
  alienSystem : List (Str × MVal)

/-- One write of `flattenPrereqs`: `if meta.Requirements[mod] == "" then
meta.Requirements[mod] = versionString(ver)` (a Go map read yields `""`
both for a missing key and for a recorded empty string). -/
def reqStep (acc : List (Str × Str)) (p : Str × MVal) : List (Str × Str) :=
  if lookupD acc p.1 = [] then setA acc p.1 (versionString p.2) else acc

/-- The phase iteration order of `flattenPrereqs`. -/
def flattenPhases : List Str := [s2l "runtime", s2l "configure", s2l "build"]

/-- The dependency-type iteration order of `flattenPrereqs`. -/
def flattenDepTypes : List Str := [s2l "requires", s2l "recommends", s2l "suggests"]

/-- `flattenPrereqs`: modern-schema prereqs, then the legacy top-level maps,
then the x_alienfile maps. -/
def flattenPrereqs (meta : MetaRawR) : List (Str × Str) :=
  let req1 := flattenPhases.foldl
    (fun acc phase =>
      match lookupA meta.prereqs phase with
      | none => acc
      | some phaseReqs =>
        flattenDepTypes.foldl
          (fun acc2 dt =>
            match lookupA phaseReqs dt with
            | some (.pmap reqMap) => reqMap.foldl reqStep acc2
            | _ => acc2)
          acc)
    []
  let req2 := meta.requires.foldl reqStep req1
  let req3 := meta.buildRequires.foldl reqStep req2
  let req4 := meta.configureRequires.foldl reqStep req3
  let req5 := meta.alienShare.foldl reqStep req4
  meta.alienSystem.foldl reqStep req5

/-- One entry of a tarball, by path and content. -/
structure TarEntryR where
  path : Str
  content : Str
deriving DecidableEq

/-- What the tarball scan of `extractMeta` collects. -/
structure ScanR where
  metaJSON : Option Str
  metaYML : Option Str
  mymetaJSON : Option Str
  mymetaYML : Option Str
  hasMakefilePL : Bool
  hasBuildPL : Bool
deriving DecidableEq

/-- One step of the tarball scan: only paths with exactly two components
are considered; the named metadata files are collected and the presence of
the configure scripts is recorded. -/
def scanStep (acc : ScanR) (e : TarEntryR) : ScanR :=
  if (splitOnC '/' e.path).length ≠ 2 then acc
  else
    let name := baseNameGo e.path
    if name = s2l "META.json" then { acc with metaJSON := some e.content }
    else if name = s2l "META.yml" then { acc with metaYML := some e.content }
    else if name = s2l "MYMETA.json" then { acc with mymetaJSON := some e.content }
    else if name = s2l "MYMETA.yml" then { acc with mymetaYML := some e.content }
    else if name = s2l "Makefile.PL" then { acc with hasMakefilePL := true }
    else if name = s2l "Build.PL" then { acc with hasBuildPL := true }
    else acc

/-- The tarball scan of `extractMeta`. -/
def scanTarball (entries : List TarEntryR) : ScanR :=
  entries.foldl scanStep ⟨none, none, none, none, false, false⟩

/-- The configure-script choice of `runConfigure`: `configScript :=
"Build.PL"; if hasMakefilePL { configScript = "Makefile.PL" }`. -/
def chooseConfigScript (hasMakefilePL : Bool) : Str :=
  if hasMakefilePL then s2l "Makefile.PL" else s2l "Build.PL"

/-- The action `extractMeta` takes first after scanning (running configure
may still fall back to the static branch on failure). -/
inductive MetaAction
  | parseMymetaJSON (b : Str)
  | parseMymetaYML (b : Str)
  | runConfig (script : Str)
  | parseMetaJSON (b : Str)
  | parseMetaYML (b : Str)
  | noMeta
deriving DecidableEq

/-- The static branch of `extractMeta`: `META.json`, then `META.yml`, else
the no-metadata error. -/
def staticAction (sc : ScanR) : MetaAction :=
  match sc.metaJSON with
  | some b => .parseMetaJSON b
  | none =>
    match sc.metaYML with
    | some b => .parseMetaYML b
    | none => .noMeta

/-- The selection order of `extractMeta`: with configure, prefer the MYMETA
files, then run the configure script when one exists, else fall back to the
static branch. -/
def extractAction (sc : ScanR) (withConfigure : Bool) : MetaAction :=
  if withConfigure then
    match sc.mymetaJSON with
    | some b => .parseMymetaJSON b
    | none =>
      match sc.mymetaYML with
      | some b => .parseMymetaYML b
      | none =>
        if sc.hasMakefilePL || sc.hasBuildPL then
          .runConfig (chooseConfigScript sc.hasMakefilePL)
        else staticAction sc
  else staticAction sc

/-! ## Downloader model (internal/downloader) -/

/-- Removal of a key from a Go map (`delete(m, k)`). -/
def removeKeyA {β : Type} (m : List (Str × β)) (k : Str) : List (Str × β) :=
  m.filter (fun p => decide (p.1 ≠ k))

/-- `downloader.Job`. -/
structure JobR where
  url : Str
  destPath : Str
  source : Str
deriving DecidableEq

/-- The file system visible to the downloader: path to content. -/
structure FsR where
  files : List (Str × Str)
deriving DecidableEq

/-- Outcome of one download: the resulting file system, success, and the
number of HTTP requests issued. -/
structure DlOut where
  fs : FsR
  ok : Bool
  requests : Nat
deriving DecidableEq

/-- `Downloader.downloadOne`, with HTTP as an oracle from URL to an
optional (status, body): cache hit returns immediately; otherwise one GET,
a non-200 status is an error, and the body is streamed to a `.tmp` file
that is then renamed onto the destination. -/
def downloadOne (fs : FsR) (http : Str → Option (Nat × Str)) (job : JobR) :
    DlOut :=
  if containsKeyA fs.files job.destPath then ⟨fs, true, 0⟩
  else
    match http job.url with
    | none => ⟨fs, false, 1⟩
    | some (status, body) =>
      if status ≠ 200 then ⟨fs, false, 1⟩
      else
        let tmp := job.destPath ++ s2l ".tmp"
        let files1 := setA fs.files tmp body
        let files2 := setA (removeKeyA files1 tmp) job.destPath body
        ⟨⟨files2⟩, true, 1⟩

/-! ## Snapshot emitter (the snapshot package) -/

/-- The snapshot `normalizeVersion`: strip operators and ranges, keep just
the minimum version. -/
def normalizeVersionSnap (v0 : Str) : Str :=
  let v := trim v0
  if v = [] then s2l "0"
  else
    let v1 :=
      match indexOfC ',' v with
      | some idx => trim (v.take idx)
      | none => v
    let v2 := trimPfxGo v1 (s2l ">=")
    let v3 := trimPfxGo v2 (s2l ">")
    let v4 := trimPfxGo v3 (s2l "==")
    let v5 := trimPfxGo v4 (s2l "=")
    let v6 := trim v5
    if v6 = [] then s2l "0" else v6

/-- Insertion into a sorted string list (`sort.Strings`). -/
def insertStr (x : Str) : List Str → List Str
  | [] => [x]
  | y :: ys => if ltStr x y then x :: y :: ys else y :: insertStr x ys

/-- Sorting of strings (`sort.Strings`), as insertion sort. -/
def sortStrs (l : List Str) : List Str := l.foldr insertStr []

/-- `sortedKeys`: the keys of a map, sorted. -/
def sortedKeysA (m : List (Str × Str)) : List Str :=
  sortStrs (m.map (fun p => p.1))

/-- Insertion into a list of records sorted by name (`sort.Slice` with a
name comparison). -/
def insertDist (x : DistR) : List DistR → List DistR
  | [] => [x]
  | y :: ys => if ltStr x.name y.name then x :: y :: ys else y :: insertDist x ys

/-- Sorting of records by name, as insertion sort. -/
def sortDists (l : List DistR) : List DistR := l.foldr insertDist []

/-- One provides line: `"      %s %s\n"`, an empty version printed as
`undef`. -/
def provLine (m : List (Str × Str)) (k : Str) : Str :=
  let v := lookupD m k
  let v1 := if v = [] then s2l "undef" else v
  s2l "      " ++ k ++ ' ' :: v1

/-- One requirements line: `"      %s %s\n"` with the normalized
constraint. -/
def reqLine (m : List (Str × Str)) (k : Str) : Str :=
  s2l "      " ++ k ++ ' ' :: normalizeVersionSnap (lookupD m k)

/-- `Emitter.emitDist`, as the list of lines it writes. -/
def emitDistLines (d : DistR) : List Str :=
  (s2l "  " ++ d.name) ::
  (s2l "    pathname: " ++ d.pathname) ::
  ((if d.provides = [] then [] else
      s2l "    provides:" :: (sortedKeysA d.provides).map (provLine d.provides)) ++
   (if d.requirements = [] then [] else
      s2l "    requirements:" ::
        (sortedKeysA d.requirements).map (reqLine d.requirements)))

/-- The two header lines of `Emitter.Emit`. -/
def headerLines : List Str :=
  [s2l "# carton snapshot format: version 1.0", s2l "DISTRIBUTIONS"]

/-- `Emitter.Emit`, as the list of lines it writes: header, marker, then
each record sorted by name. -/
def emitLines (ds : List DistR) : List Str :=
  headerLines ++ (sortDists ds).foldr (fun d acc => emitDistLines d ++ acc) []

/-- Join lines into the emitted text; every `Fprintf` ends in `\n`. -/
def joinLines (ls : List Str) : Str := ls.foldr (fun l acc => l ++ '\n' :: acc) []

/-- The full emitted snapshot text. -/
def emitText (ds : List DistR) : Str := joinLines (emitLines ds)

/-! ## Snapshot input parser

`Parser.Parse` of the `snapshot` package: lines starting with `#`, the
`DISTRIBUTIONS` marker and empty lines are skipped; `distNameRe =
^  (\S+)$` finishes the open record and starts a new one with cleared
section flags; with no open record all further line kinds are skipped;
`pathnameRe = ^    pathname: (.+)$` sets the pathname; the exact lines
`    provides:` and `    requirements:` switch the section flags;
`moduleVerRe = ^      (\S+) (.+)$` writes a module entry into the open
section's map; anything else is ignored. -/

/-- The two mutually exclusive section booleans `inProvides` /
`inRequirements` (`noSec` is both false; every assignment site clears the
other flag, so the two are never both set). -/
inductive SecR
  | noSec
  | inProvides
  | inRequirements
deriving DecidableEq

/-- Parser state: `dists`, `current`, and the section flags. -/
structure PStateR where
  done : List DistR
  cur : Option DistR
  sec : SecR
deriving DecidableEq

/-- Append `current` to `dists`, if a record is open. -/
def flushCur : Option DistR → List DistR
  | none => []
  | some d => [d]

/-- A character of the Go regexp class `\s`, i.e. `[\t\n\f\r ]`. -/
def isGoWS (c : Char) : Bool :=
  c == ' ' || c == '\t' || c == '\n' || c == '\x0c' || c == '\r'

/-- `distNameRe.FindStringSubmatch`: `^  (\S+)$` captures the rest of the
line after two spaces when it is a nonempty run of non-whitespace. -/
def matchDistName (line : Str) : Option Str :=
  if strStarts line (s2l "  ") ∧ line.drop 2 ≠ [] ∧
      (line.drop 2).all (fun c => !isGoWS c) = true then
    some (line.drop 2)
  else none

/-- `pathnameRe.FindStringSubmatch`: `^    pathname: (.+)$` captures the
nonempty rest of the line after the literal prefix. -/
def matchPathname (line : Str) : Option Str :=
  if strStarts line (s2l "    pathname: ") then
    match line.drop (s2l "    pathname: ").length with
    | [] => none
    | p => some p
  else none

/-- `moduleVerRe.FindStringSubmatch`: `^      (\S+) (.+)$` captures the
maximal non-whitespace run after six spaces, a single literal space, and
the nonempty rest of the line (backtracking cannot shorten the `\S+` run,
because the character after a shorter run is non-whitespace and so never
the required literal space). -/
def matchModuleVer (line : Str) : Option (Str × Str) :=
  if strStarts line (s2l "      ") then
    let rest := line.drop 6
    let m := rest.takeWhile (fun c => !isGoWS c)
    match rest.dropWhile (fun c => !isGoWS c) with
    | c :: v => if m ≠ [] ∧ c = ' ' ∧ v ≠ [] then some (m, v) else none
    | [] => none
  else none

/-- One line of `Parser.Parse`: header, marker and empty lines are
skipped; a distribution-name match finishes the open record and starts a
new one; everything further is skipped when no record is open; a pathname
match sets the pathname; the exact section headers switch the section
flags; a module/version match writes into the open section's map (a Go
map write); anything else is skipped. -/
def parseLine (st : PStateR) (line : Str) : PStateR :=
  if strStarts line (s2l "#") then st
  else if line = s2l "DISTRIBUTIONS" then st
  else if line = [] then st
  else
    match matchDistName line with
    | some name =>
      ⟨st.done ++ flushCur st.cur, some ⟨name, [], [], [], []⟩, SecR.noSec⟩
    | none =>
      match st.cur with
      | none => st
      | some d =>
        match matchPathname line with
        | some p => ⟨st.done, some { d with pathname := p }, st.sec⟩
        | none =>
          if line = s2l "    provides:" then
            ⟨st.done, some d, SecR.inProvides⟩
          else if line = s2l "    requirements:" then
            ⟨st.done, some d, SecR.inRequirements⟩
          else
            match matchModuleVer line, st.sec with
            | some (m, v), SecR.inProvides =>
              ⟨st.done, some { d with provides := setA d.provides m v }, st.sec⟩
            | some (m, v), SecR.inRequirements =>
              ⟨st.done, some { d with requirements := setA d.requirements m v },
                st.sec⟩
            | _, _ => st

/-- `Parser.Parse` over the scanned lines: fold the per-line step, then
append the last open record. -/
def parseLines (ls : List Str) : List DistR :=
  let fin := ls.foldl parseLine ⟨[], none, SecR.noSec⟩
  fin.done ++ flushCur fin.cur

/-- The `bufio` line scanner: split a text into lines at `\n`. -/
def splitLinesC (t : Str) : List Str := splitOnC '\n' t

/-- `Parser.Parse` on a snapshot text. -/
def parseText (t : Str) : List DistR := parseLines (splitLinesC t)

/-- The normalized constraint as claim C8 words it: surrounding whitespace
stripped, the substring before the first comma, one leading operator from
the set `>=`, `>`, `==`, `=` stripped, re-trimmed, and `0` if empty. -/
def stripOneOp (v : Str) : Str :=
  if strStarts v (s2l ">=") then v.drop 2
  else if strStarts v (s2l "==") then v.drop 2
  else if strStarts v (s2l ">") then v.drop 1
  else if strStarts v (s2l "=") then v.drop 1
  else v

/-- The claimed normalized-constraint computation (one operator stripped). -/
def specNormalizedConstraint (c : Str) : Str :=
  let v := trim c
  let v1 := v.takeWhile (fun x => decide (x ≠ ','))
  let v2 := stripOneOp v1
  let v3 := trim v2
  if v3 = [] then s2l "0" else v3

/-- Sequential operator stripping as the source performs it: remove a
leading `>=`, then `>`, then `==`, then `=`, each at most once, in that
order. -/
def stripOpsSeq (v : Str) : Str :=
  trimPfxGo (trimPfxGo (trimPfxGo (trimPfxGo v (s2l ">=")) (s2l ">")) (s2l "==")) (s2l "=")

/-- The normalized-constraint computation with sequential operator
stripping (the amended form of claim C8). -/
def specNormalizedConstraintSeq (c : Str) : Str :=
  let v := trim c
  let v1 := v.takeWhile (fun x => decide (x ≠ ','))
  let v2 := stripOpsSeq v1
  let v3 := trim v2
  if v3 = [] then s2l "0" else v3

/-! ## Lemmas about the version comparison loop -/

lemma cmpIntList_nil_left (ys : List Int) : cmpIntList [] ys = cmpTailZero ys := rfl

lemma cmpIntList_nil_right (ys : List Int) : cmpIntList ys [] = -cmpTailZero ys := by
  induction ys with
  | nil => rfl
  | cons b bs ih =>
    simp only [cmpIntList, cmpTailZero]
    split_ifs <;> omega

lemma cmpIntList_antisymm (xs ys : List Int) : cmpIntList xs ys = -cmpIntList ys xs := by
  induction xs generalizing ys with
  | nil => simp [cmpIntList_nil_left, cmpIntList_nil_right]
  | cons x xs ih =>
    cases ys with
    | nil => simp [cmpIntList_nil_left, cmpIntList_nil_right]
    | cons y ys =>
      simp only [cmpIntList]
      split_ifs <;> first | omega | exact ih ys

lemma cmpIntList_refl (xs : List Int) : cmpIntList xs xs = 0 := by
  induction xs with
  | nil => rfl
  | cons x xs ih => simp [cmpIntList, lt_irrefl, ih]

/-- C6.  The version comparator satisfies reflexivity and antisymmetry, and
the dotted/decimal parity examples behave as specified: `3.18.0` compares
above `3.007004`, `2.005005` above `2.005`, `1.001` equal to `1.1`, with
the decimal-format string `3.007004` parsed as major plus 3-digit groups. -/
theorem compareVersions_laws :
    (∀ v, compareVersions v v = 0) ∧
    (∀ a b, compareVersions a b = -compareVersions b a) ∧
    compareVersions (s2l "3.18.0") (s2l "3.007004") > 0 ∧
    compareVersions (s2l "2.005005") (s2l "2.005") > 0 ∧
    compareVersions (s2l "1.001") (s2l "1.1") = 0 ∧
    normalizeVersion (s2l "3.007004") = [3, 7, 4] := by
  refine ⟨fun v => cmpIntList_refl _, fun a b => cmpIntList_antisymm _ _, ?_, ?_, ?_, ?_⟩
  all_goals decide

/-! ## Lemmas about trimming and splitting -/

/-- A version character: ASCII digit or dot. -/
def verChar (c : Char) : Bool := c.isDigit || decide (c = '.')

lemma verChar_nonspace (c : Char) (h : verChar c = true) : isSpaceC c = false := by
  simp only [verChar, Bool.or_eq_true, decide_eq_true_eq] at h
  rcases h with h | h
  · simp only [Char.isDigit] at h
    simp only [isSpaceC, Bool.or_eq_false_iff, beq_eq_false_iff_ne, ne_eq]
    refine ⟨⟨⟨?_, ?_⟩, ?_⟩, ?_⟩ <;> rintro rfl <;> simp at h
  · subst h; decide

lemma splitOnC_ne_nil (sep : Char) (s : Str) : splitOnC sep s ≠ [] := by
  cases s with
  | nil => simp [splitOnC]
  | cons c cs =>
    rcases h : splitOnC sep cs with _ | ⟨h1, t1⟩
    · simp [splitOnC, h]
    · simp only [splitOnC, h]
      split_ifs <;> simp

lemma splitOnC_append_sep (sep : Char) (xs ys : Str) (h : sep ∉ xs) :
    splitOnC sep (xs ++ sep :: ys) = xs :: splitOnC sep ys := by
  induction xs with
  | nil =>
    simp only [List.nil_append, splitOnC]
    rcases h2 : splitOnC sep ys with _ | ⟨h1, t1⟩
    · exact absurd h2 (splitOnC_ne_nil sep ys)
    · simp
  | cons x xs ih =>
    have hx : x ≠ sep := fun he => h (he ▸ List.mem_cons_self x xs)
    have hxs : sep ∉ xs := fun hm => h (List.mem_cons_of_mem x hm)
    rw [List.cons_append]
    rcases h2 : splitOnC sep (xs ++ sep :: ys) with _ | ⟨h1, t1⟩
    · exact absurd h2 (splitOnC_ne_nil sep (xs ++ sep :: ys))
    · rw [ih hxs] at h2
      cases h2
      simp [splitOnC, ih hxs, hx]

lemma trimRight_eq_self (s : Str) (h : ∀ c ∈ s, isSpaceC c = false) :
    trimRight s = s := by
  induction s with
  | nil => rfl
  | cons c cs ih =>
    have hcs : ∀ x ∈ cs, isSpaceC x = false := fun x hx => h x (List.mem_cons_of_mem c hx)
    have hc : isSpaceC c = false := h c (List.mem_cons_self c cs)
    simp only [trimRight, ih hcs]
    cases cs with
    | nil => simp [hc]
    | cons d ds => rfl

lemma trimRight_append (xs ys : Str) (h : trimRight ys ≠ []) :
    trimRight (xs ++ ys) = xs ++ trimRight ys := by
  induction xs with
  | nil => rfl
  | cons x xs ih =>
    rcases h2 : xs ++ trimRight ys with _ | ⟨d, ds⟩
    · rcases List.append_eq_nil.mp h2 with ⟨_, h4⟩
      exact absurd h4 h
    · simp only [List.cons_append, trimRight, List.append_eq, ih, h2]

lemma trimLeft_cons (c : Char) (cs : Str) :
    trimLeft (c :: cs) = if isSpaceC c then trimLeft cs else c :: cs := by
  simp only [trimLeft, List.dropWhile]
  split_ifs with h <;> simp_all

lemma trim_of_nonspace (s : Str) (h : ∀ c ∈ s, isSpaceC c = false) :
    trim s = s := by
  unfold trim
  rw [trimRight_eq_self s h]
  cases s with
  | nil => rfl
  | cons c cs => rw [trimLeft_cons, if_neg (by simp [h c (List.mem_cons_self c cs)])]

lemma splitOnC_not_mem (sep : Char) (s : Str) (h : sep ∉ s) :
    splitOnC sep s = [s] := by
  induction s with
  | nil => rfl
  | cons c cs ih =>
    have hc : c ≠ sep := fun he => h (he ▸ List.mem_cons_self c cs)
    have hcs : sep ∉ cs := fun hm => h (List.mem_cons_of_mem c hm)
    simp [splitOnC, ih hcs, hc]

lemma trim_ge_clause (a : Str) (ha : ∀ c ∈ a, isSpaceC c = false) (hane : a ≠ []) :
    trim (s2l ">= " ++ a) = s2l ">= " ++ a := by
  have hra : trimRight a = a := trimRight_eq_self a ha
  unfold trim
  rw [trimRight_append (s2l ">= ") a (by rw [hra]; exact hane), hra]
  rfl

lemma trim_sp_cons (a : Str) (ha : ∀ c ∈ a, isSpaceC c = false) (hane : a ≠ []) :
    trim (' ' :: a) = a := by
  have hra : trimRight a = a := trimRight_eq_self a ha
  unfold trim
  have h1 : (' ' :: a) = [' '] ++ a := rfl
  rw [h1, trimRight_append [' '] a (by rw [hra]; exact hane), hra]
  cases a with
  | nil => exact absurd rfl hane
  | cons c cs =>
    have hc := ha c (List.mem_cons_self c cs)
    simp only [List.singleton_append, trimLeft_cons]
    rw [if_pos (by decide : isSpaceC ' ' = true), if_neg (by simp [hc])]

lemma trim_lt_clause (b : Str) (hb : ∀ c ∈ b, isSpaceC c = false) (hbne : b ≠ []) :
    trim (s2l " < " ++ b) = '<' :: ' ' :: b := by
  have hrb : trimRight b = b := trimRight_eq_self b hb
  unfold trim
  rw [trimRight_append (s2l " < ") b (by rw [hrb]; exact hbne), hrb]
  rfl

lemma trim_lt_clause2 (b : Str) (hb : ∀ c ∈ b, isSpaceC c = false) (hbne : b ≠ []) :
    trim ('<' :: ' ' :: b) = '<' :: ' ' :: b := by
  have hrb : trimRight b = b := trimRight_eq_self b hb
  unfold trim
  have h1 : ('<' :: ' ' :: b) = ['<', ' '] ++ b := rfl
  rw [h1, trimRight_append ['<', ' '] b (by rw [hrb]; exact hrb ▸ hbne), hrb]
  rfl

lemma satisfiesOne_ge (hv a : Str) (ha : ∀ c ∈ a, isSpaceC c = false)
    (hane : a ≠ []) :
    satisfiesOne hv (s2l ">= " ++ a) = decide (0 ≤ compareVersions hv a) := by
  unfold satisfiesOne
  rw [trim_ge_clause a ha hane]
  have e1 : s2l ">= " ++ a = '>' :: '=' :: ' ' :: a := rfl
  rw [e1]
  rw [if_neg (by simp [s2l])]
  have hpre : strStarts ('>' :: '=' :: ' ' :: a) (s2l ">=") = true := by
    simp [strStarts, s2l, List.isPrefixOf]
  simp only [hpre, if_pos rfl, if_true]
  have hdrop : ('>' :: '=' :: ' ' :: a).drop 2 = ' ' :: a := rfl
  rw [hdrop, trim_sp_cons a ha hane]

lemma satisfiesOne_lt (hv b : Str) (hb : ∀ c ∈ b, isSpaceC c = false)
    (hbne : b ≠ []) :
    satisfiesOne hv ('<' :: ' ' :: b) = decide (compareVersions hv b < 0) := by
  have h1 : trim ('<' :: ' ' :: b) = '<' :: ' ' :: b := trim_lt_clause2 b hb hbne
  have h2 : trim (' ' :: b) = b := trim_sp_cons b hb hbne
  simp only [satisfiesOne, h1, List.drop, h2]
  rfl

/-- C7.  Constraint satisfaction: `undef` satisfies every constraint, the
empty constraint and `"0"` are satisfied by every version, and a
two-clause range `>= A, < B` holds exactly when `A ≤ V < B` under the
version comparator. -/
theorem satisfies_spec :
    (∀ c, satisfies (s2l "undef") c = true) ∧
    (∀ v, satisfies v (s2l "") = true ∧ satisfies v (s2l "0") = true) ∧
    (∀ v a b, v.all verChar = true → a.all verChar = true → b.all verChar = true →
      a ≠ [] → b ≠ [] →
      (satisfies v (s2l ">= " ++ a ++ s2l ", < " ++ b) = true ↔
        0 ≤ compareVersions v a ∧ compareVersions v b < 0)) := by
  refine ⟨?_, ?_, ?_⟩
  · intro c
    unfold satisfies
    split_ifs with h1 h2 <;> first | rfl | exact absurd rfl h2
  · intro v
    constructor <;> simp [satisfies, s2l]
  · intro v a b hv ha hb hane hbne
    have hva : ∀ c ∈ a, isSpaceC c = false := fun c hc =>
      verChar_nonspace c (List.all_eq_true.mp ha c hc)
    have hvb : ∀ c ∈ b, isSpaceC c = false := fun c hc =>
      verChar_nonspace c (List.all_eq_true.mp hb c hc)
    have hca : ',' ∉ a := fun hm => by
      have := List.all_eq_true.mp ha ',' hm; simp [verChar] at this
    have hcb : ',' ∉ b := fun hm => by
      have := List.all_eq_true.mp hb ',' hm; simp [verChar] at this
    have hvu : v ≠ s2l "undef" := by
      intro h; subst h; exact absurd hv (by decide)
    have hw : s2l ">= " ++ a ++ s2l ", < " ++ b =
        (s2l ">= " ++ a) ++ ',' :: (s2l " < " ++ b) := by
      rw [List.append_assoc, List.append_assoc]
      rfl
    have hsplit : splitOnC ',' ((s2l ">= " ++ a) ++ ',' :: (s2l " < " ++ b)) =
        [s2l ">= " ++ a, s2l " < " ++ b] := by
      rw [splitOnC_append_sep ',' _ _ (by
        intro hm
        rcases List.mem_append.mp hm with h | h
        · simp [s2l] at h
        · exact hca h)]
      rw [splitOnC_not_mem ',' _ (by
        intro hm
        rcases List.mem_append.mp hm with h | h
        · simp [s2l] at h
        · exact hcb h)]
    unfold satisfies
    rw [hw, if_neg (by simp [s2l]), if_neg hvu, hsplit]
    have hcmp : ∀ x, compareVersions (if v = [] then s2l "0" else v) x =
        compareVersions v x := by
      intro x
      split_ifs with h
      · subst h
        unfold compareVersions
        have : normalizeVersion (s2l "0") = normalizeVersion [] := by decide
        rw [this]
      · rfl
    simp only [List.all_cons, List.all_nil, Bool.and_true]
    rw [trim_ge_clause a hva hane, trim_lt_clause b hvb hbne]
    rw [satisfiesOne_ge _ a hva hane, satisfiesOne_lt _ b hvb hbne]
    rw [hcmp a, hcmp b]
    simp [ge_iff_le]

/-- Witness for C7: the range clause part applied at `V = 2`, `A = 1`,
`B = 3`. -/
theorem satisfies_spec_witness :
    satisfies (s2l "2") (s2l ">= " ++ s2l "1" ++ s2l ", < " ++ s2l "3") = true :=
  (satisfies_spec.2.2 (s2l "2") (s2l "1") (s2l "3") (by decide) (by decide)
    (by decide) (by decide) (by decide)).mpr (by decide)

/-! ## Lemmas for the snapshot constraint normalizer -/

lemma takeWhile_indexOfC (v : Str) :
    v.takeWhile (fun x => decide (x ≠ ',')) =
      (match indexOfC ',' v with
       | some i => v.take i
       | none => v) := by
  induction v with
  | nil => rfl
  | cons c cs ih =>
    by_cases hc : c = ','
    · subst hc
      have h3 : indexOfC ',' (',' :: cs) = some 0 := by simp [indexOfC]
      rw [h3]
      rw [List.takeWhile_cons, if_neg (by simp)]
      rfl
    · have hpc : (fun x => decide (x ≠ ',')) c = true := by simp [hc]
      rcases h2 : indexOfC ',' cs with _ | i
      · rw [h2] at ih
        dsimp only at ih
        have h3 : indexOfC ',' (c :: cs) = none := by simp [indexOfC, hc, h2]
        rw [h3]
        rw [List.takeWhile_cons, if_pos hpc, ih]
      · rw [h2] at ih
        dsimp only at ih
        have h3 : indexOfC ',' (c :: cs) = some (i + 1) := by
          simp [indexOfC, hc, h2]
        rw [h3]
        rw [List.takeWhile_cons, if_pos hpc, ih]
        rfl

lemma trimRight_eq_nil_all_space (s : Str) (h : trimRight s = []) :
    ∀ c ∈ s, isSpaceC c = true := by
  induction s with
  | nil => simp
  | cons c cs ih =>
    intro x hx
    rcases h2 : trimRight cs with _ | ⟨d, ds⟩
    · simp only [trimRight, h2] at h
      rcases List.mem_cons.mp hx with rfl | hx2
      · by_cases hs : isSpaceC x = true
        · exact hs
        · rw [if_neg (by simp_all)] at h
          simp at h
      · exact ih h2 x hx2
    · simp [trimRight, h2] at h

lemma trimRight_append_nil (xs ys : Str) (h : trimRight ys = []) :
    trimRight (xs ++ ys) = trimRight xs := by
  induction xs with
  | nil => simp [trimRight, h]
  | cons x xs ih =>
    simp only [List.cons_append, trimRight, List.append_eq, ih]

lemma trimRight_cons_head (c : Char) (cs : Str) :
    trimRight (c :: cs) = [] ∨ ∃ ds, trimRight (c :: cs) = c :: ds := by
  rcases h : trimRight cs with _ | ⟨d, ds⟩
  · simp only [trimRight, h]
    split_ifs
    · exact Or.inl rfl
    · exact Or.inr ⟨[], rfl⟩
  · exact Or.inr ⟨d :: ds, by simp [trimRight, h]⟩

lemma isPrefixOf_all_space (p s : Str) (hpne : p ≠ [])
    (hp : ∀ c ∈ p, isSpaceC c = false) (hs : ∀ c ∈ s, isSpaceC c = true) :
    List.isPrefixOf p s = false := by
  cases p with
  | nil => exact absurd rfl hpne
  | cons q qs =>
    cases s with
    | nil => rfl
    | cons a as0 =>
      have hq : isSpaceC q = false := hp q (List.mem_cons_self q qs)
      have ha : isSpaceC a = true := hs a (List.mem_cons_self a as0)
      have : q ≠ a := by intro he; rw [he, ha] at hq; exact Bool.noConfusion hq
      simp [List.isPrefixOf, this]

lemma strStarts_trimRight (w : Str) : ∀ p : Str,
    (∀ c ∈ p, isSpaceC c = false) →
    strStarts (trimRight w) p = strStarts w p := by
  induction w with
  | nil => intro p hp; rfl
  | cons a w2 ih =>
    intro p hp
    cases p with
    | nil => simp [strStarts, List.isPrefixOf]
    | cons q qs =>
      have hq : isSpaceC q = false := hp q (List.mem_cons_self q qs)
      have hqs : ∀ c ∈ qs, isSpaceC c = false := fun c hc =>
        hp c (List.mem_cons_of_mem q hc)
      rcases h2 : trimRight w2 with _ | ⟨d, ds⟩
      · simp only [trimRight, h2]
        split_ifs with ha
        · have hne : (q == a) = false := by
            simp only [beq_eq_false_iff_ne, ne_eq]
            intro he; rw [he, ha] at hq; exact Bool.noConfusion hq
          simp [strStarts, List.isPrefixOf, hne]
        · by_cases hqa : q = a
          · subst hqa
            simp only [strStarts, List.isPrefixOf, beq_self_eq_true, Bool.true_and]
            cases qs with
            | nil => simp [List.isPrefixOf]
            | cons r rs =>
              rw [isPrefixOf_all_space (r :: rs) w2 (by simp) hqs
                (trimRight_eq_nil_all_space w2 h2)]
              simp [List.isPrefixOf]
          · have hne : (q == a) = false := by simp [hqa]
            simp [strStarts, List.isPrefixOf, hne]
      · have ih2 := ih qs hqs
        rw [h2] at ih2
        by_cases hqa : q = a
        · subst hqa
          simp only [trimRight, h2, strStarts, List.isPrefixOf, beq_self_eq_true,
            Bool.true_and]
          exact ih2
        · have hne : (q == a) = false := by simp [hqa]
          simp [trimRight, h2, strStarts, List.isPrefixOf, hne]

lemma trimRight_cons_eq (c : Char) (cs : Str) :
    trimRight (c :: cs) =
      (match trimRight cs with
       | [] => if isSpaceC c then [] else [c]
       | d :: ds => c :: d :: ds) := rfl

lemma isPrefixOf_append_self (p rest : Str) :
    List.isPrefixOf p (p ++ rest) = true := by
  induction p with
  | nil => simp
  | cons c cs ih => simp [List.isPrefixOf, ih]

lemma isPrefixOf_decompose (p w : Str) (h : List.isPrefixOf p w = true) :
    w = p ++ w.drop p.length := by
  induction p generalizing w with
  | nil => simp
  | cons q qs ih =>
    cases w with
    | nil => simp [List.isPrefixOf] at h
    | cons a w2 =>
      simp only [List.isPrefixOf, Bool.and_eq_true, beq_iff_eq] at h
      rcases h with ⟨rfl, h2⟩
      simpa using ih w2 h2

lemma trimRight_idem (s : Str) : trimRight (trimRight s) = trimRight s := by
  induction s with
  | nil => rfl
  | cons c cs ih =>
    rcases h : trimRight cs with _ | ⟨d, ds⟩
    · simp only [trimRight, h]
      split_ifs with hc
      · rfl
      · simp [trimRight, hc]
    · rw [h] at ih
      have h3 : trimRight (c :: cs) = c :: d :: ds := by simp [trimRight, h]
      rw [h3, trimRight_cons_eq, ih]

lemma trimPfx_trimRight (w p : Str) (hpne : p ≠ [])
    (hp : ∀ c ∈ p, isSpaceC c = false) :
    trimPfxGo (trimRight w) p = trimRight (trimPfxGo w p) := by
  unfold trimPfxGo
  rw [strStarts_trimRight w p hp]
  by_cases h : strStarts w p = true
  · rw [if_pos h, if_pos h]
    have hd := isPrefixOf_decompose p w h
    rcases h2 : trimRight (w.drop p.length) with _ | ⟨d, ds⟩
    · conv =>
        lhs
        rw [hd]
      rw [trimRight_append_nil p _ h2, trimRight_eq_self p hp]
      simp
    · conv =>
        lhs
        rw [hd]
      rw [trimRight_append p _ (by rw [h2]; simp), h2, List.drop_left]
  · rw [if_neg h, if_neg h]

lemma stripOpsSeq_trimRight (w : Str) :
    stripOpsSeq (trimRight w) = trimRight (stripOpsSeq w) := by
  unfold stripOpsSeq
  rw [trimPfx_trimRight w (s2l ">=") (by decide) (by decide)]
  rw [trimPfx_trimRight _ (s2l ">") (by decide) (by decide)]
  rw [trimPfx_trimRight _ (s2l "==") (by decide) (by decide)]
  rw [trimPfx_trimRight _ (s2l "=") (by decide) (by decide)]

lemma dropWhile_head_false (p : Char → Bool) (l : Str) (c : Char) (cs : Str)
    (h : l.dropWhile p = c :: cs) : p c = false := by
  induction l with
  | nil => simp at h
  | cons x xs ih =>
    by_cases hx : p x = true
    · rw [List.dropWhile_cons, if_pos hx] at h
      exact ih h
    · rw [List.dropWhile_cons, if_neg hx] at h
      cases h
      simpa using hx

lemma trim_head_nonspace (s : Str) (c : Char) (cs : Str) (h : trim s = c :: cs) :
    isSpaceC c = false := dropWhile_head_false isSpaceC (trimRight s) c cs h

lemma trim_of_headok (w : Str)
    (hw : w = [] ∨ ∃ c cs, w = c :: cs ∧ isSpaceC c = false) :
    trim w = trimRight w := by
  rcases hw with rfl | ⟨c, cs, rfl, hc⟩
  · rfl
  · unfold trim
    rcases trimRight_cons_head c cs with h | ⟨ds, h⟩
    · rw [h]; rfl
    · rw [h, trimLeft_cons, if_neg (by simp [hc])]

lemma trim_stripOps_trim (w : Str)
    (hw : w = [] ∨ ∃ c cs, w = c :: cs ∧ isSpaceC c = false) :
    trim (stripOpsSeq (trim w)) = trim (stripOpsSeq w) := by
  rw [trim_of_headok w hw, stripOpsSeq_trimRight w]
  unfold trim
  rw [trimRight_idem]

/-- C8 counterexample: on `"===1.0"` the emitter's normalizer strips two
operators (`==` then `=`) and writes `1.0`, while the claimed
one-operator stripping yields `=1.0`. -/
theorem normalizeVersionSnap_counterexample :
    normalizeVersionSnap (s2l "===1.0") = s2l "1.0" ∧
    specNormalizedConstraint (s2l "===1.0") = s2l "=1.0" ∧
    normalizeVersionSnap (s2l "===1.0") ≠ specNormalizedConstraint (s2l "===1.0") := by
  decide

/-- C8 (amended).  The emitted normalized constraint equals: surrounding
whitespace stripped, the substring before the first comma, leading
operators stripped by removing a prefix `>=`, then `>`, then `==`, then
`=`, each at most once in that order (so stacked operators may be stripped
repeatedly), re-trimmed; `0` if the result is empty. -/
theorem normalizeVersionSnap_spec (c : Str) :
    normalizeVersionSnap c = specNormalizedConstraintSeq c := by
  have echain : ∀ x : Str,
      trimPfxGo (trimPfxGo (trimPfxGo (trimPfxGo x (s2l ">=")) (s2l ">"))
        (s2l "==")) (s2l "=") = stripOpsSeq x := fun _ => rfl
  simp only [normalizeVersionSnap, specNormalizedConstraintSeq]
  by_cases h0 : trim c = []
  · rw [h0]
    rfl
  · rw [if_neg h0, takeWhile_indexOfC (trim c)]
    have hhead : ∀ w : Str, trim w = [] ∨
        ∃ d ds, trim w = d :: ds ∧ isSpaceC d = false := by
      intro w
      rcases hu : trim w with _ | ⟨d, ds⟩
      · exact Or.inl rfl
      · exact Or.inr ⟨d, ds, rfl, trim_head_nonspace w d ds hu⟩
    rcases hidx : indexOfC ',' (trim c) with _ | idx
    · rfl
    · dsimp only
      simp only [echain]
      have hw : (trim c).take idx = [] ∨
          ∃ e es, (trim c).take idx = e :: es ∧ isSpaceC e = false := by
        rcases hhead c with h | ⟨d, ds, hdd, hds⟩
        · exact absurd h h0
        · rw [hdd]
          cases idx with
          | zero => exact Or.inl rfl
          | succ n => exact Or.inr ⟨d, List.take n ds, by simp, hds⟩
      rw [trim_stripOps_trim _ hw]

/-! ## Claim theorems: downloader, extractor, core elision -/

/-- C9.  A download job whose destination file already exists succeeds
immediately: the file system is unchanged and no HTTP request is issued. -/
theorem downloadOne_cache_hit (fs : FsR) (http : Str → Option (Nat × Str))
    (job : JobR) (h : containsKeyA fs.files job.destPath = true) :
    downloadOne fs http job = ⟨fs, true, 0⟩ := by
  unfold downloadOne
  rw [if_pos h]

/-- Witness for C9 at a concrete cached file. -/
theorem downloadOne_cache_hit_witness :
    downloadOne ⟨[(s2l "/c/a.tar.gz", s2l "data")]⟩
      (fun _ => some (200, s2l "new"))
      ⟨s2l "http://x/a.tar.gz", s2l "/c/a.tar.gz", s2l "cpan"⟩ =
      ⟨⟨[(s2l "/c/a.tar.gz", s2l "data")]⟩, true, 0⟩ :=
  downloadOne_cache_hit _ _ _ (by decide)

/-- C4 counterexample: a tarball with both configure scripts and no MYMETA
file runs configure with `Makefile.PL`, not `Build.PL` as claimed. -/
theorem chooseConfigScript_counterexample :
    extractAction
      (scanTarball
        [⟨s2l "Dist-1.0/Build.PL", []⟩, ⟨s2l "Dist-1.0/Makefile.PL", []⟩,
         ⟨s2l "Dist-1.0/META.json", s2l "x"⟩]) true =
      MetaAction.runConfig (s2l "Makefile.PL") ∧
    extractAction
      (scanTarball
        [⟨s2l "Dist-1.0/Build.PL", []⟩, ⟨s2l "Dist-1.0/Makefile.PL", []⟩,
         ⟨s2l "Dist-1.0/META.json", s2l "x"⟩]) true ≠
      MetaAction.runConfig (s2l "Build.PL") := by
  decide

/-- C4 (amended).  In with-dynamic-configure mode, when the scan finds no
MYMETA file and both configure scripts, the configure step runs
`Makefile.PL`; `Build.PL` is used only when `Makefile.PL` is absent. -/
theorem chooseConfigScript_prefers_makefile (entries : List TarEntryR)
    (h1 : (scanTarball entries).mymetaJSON = none)
    (h2 : (scanTarball entries).mymetaYML = none)
    (h3 : (scanTarball entries).hasMakefilePL = true)
    (h4 : (scanTarball entries).hasBuildPL = true) :
    extractAction (scanTarball entries) true =
      MetaAction.runConfig (s2l "Makefile.PL") := by
  unfold extractAction
  rw [h1, h2, h3]
  simp [chooseConfigScript]

/-- Witness for the amended C4 at a concrete tarball. -/
theorem chooseConfigScript_prefers_makefile_witness :
    extractAction
      (scanTarball
        [⟨s2l "Dist-1.0/Build.PL", []⟩, ⟨s2l "Dist-1.0/Makefile.PL", []⟩]) true =
      MetaAction.runConfig (s2l "Makefile.PL") :=
  chooseConfigScript_prefers_makefile _ (by decide) (by decide) (by decide)
    (by decide)

/-- Environment for the core-elision counterexample: `Foo` is indexed on
CPAN and its metadata declares that it also provides the core module
`Carp`. -/
def envCoreCx : EnvR :=
  { cpan := fun m =>
      if m = s2l "Foo" then
        some ⟨s2l "Foo", s2l "1.0", s2l "F/FO/FOO/Foo-1.0.tar.gz"⟩
      else none
  , mirror := s2l "https://m"
  , backpan := fun _ _ => none
  , backpanLocal := fun u => u
  , cacheDir := s2l "/c"
  , download := fun _ _ => true
  , extract := fun p =>
      if p = s2l "/c/F/FO/FOO/Foo-1.0.tar.gz" then
        some ⟨s2l "Foo-1.0", s2l "1.0",
          [(s2l "Foo", ⟨[], s2l "1.0"⟩), (s2l "Carp", ⟨[], s2l "1.0"⟩)], []⟩
      else none }

/-- C2 counterexample: resolving `Foo` binds the core module `Carp` in the
resolved map through the provides loop, and the record bound to `Carp`
appears in the resolver's output. -/
theorem core_elision_counterexample :
    isCore (s2l "Carp") = true ∧
    (resolveAll 2 envCoreCx [(s2l "Foo", [])]).map
      (fun st => containsKeyA st.resolved (s2l "Carp")) = some true ∧
    (Resolve 2 envCoreCx [(s2l "Foo", [])]).map
      (fun ds => ds.any (fun d => containsKeyA d.provides (s2l "Carp"))) =
      some true := by
  decide

/-- C2 (amended).  A resolution request for a module in the core set
returns immediately: no record is created and the resolver state is
unchanged.  (Core modules can still be bound in the resolved map when
another distribution lists them among its provides.) -/
theorem resolveOne_core_no_record (fuel : Nat) (env : EnvR) (st : StateR)
    (m v : Str) (h : isCore m = true) :
    resolveOne (fuel + 1) env st m v = some st := by
  unfold resolveOne
  rw [if_pos h]

/-- Witness for the amended C2: resolving `strict` leaves the empty state
unchanged. -/
theorem resolveOne_core_no_record_witness :
    resolveOne 1 envCoreCx ⟨[], []⟩ (s2l "strict") [] = some ⟨[], []⟩ :=
  resolveOne_core_no_record 0 envCoreCx ⟨[], []⟩ (s2l "strict") [] (by decide)

/-! ## Claim C5: requirements flattening -/

/-- Concatenation of lists. -/
def joinL {α : Type} : List (List α) → List α
  | [] => []
  | l :: ls => l ++ joinL ls

/-- One write of the flattening, on an already-coerced pair. -/
def reqStepS (acc : List (Str × Str)) (p : Str × Str) : List (Str × Str) :=
  if lookupD acc p.1 = [] then setA acc p.1 p.2 else acc

/-- The coerced pairs contributed by one dependency type of one phase. -/
def specDtPairs (phaseReqs : List (Str × PrereqVal)) (dt : Str) :
    List (Str × Str) :=
  match lookupA phaseReqs dt with
  | some (.pmap reqMap) => reqMap.map (fun p => (p.1, versionString p.2))
  | _ => []

/-- The coerced pairs contributed by one phase of the modern schema. -/
def specPhasePairs (meta : MetaRawR) (phase : Str) : List (Str × Str) :=
  match lookupA meta.prereqs phase with
  | none => []
  | some phaseReqs => joinL (flattenDepTypes.map (specDtPairs phaseReqs))

/-- All candidate (module, constraint) pairs in the priority order of the
claim: modern schema over phases runtime, configure, build and dependency
types requires, recommends, suggests; then the legacy maps; then the
x_alienfile maps. -/
def specPairs (meta : MetaRawR) : List (Str × Str) :=
  joinL (flattenPhases.map (specPhasePairs meta)) ++
  meta.requires.map (fun p => (p.1, versionString p.2)) ++
  meta.buildRequires.map (fun p => (p.1, versionString p.2)) ++
  meta.configureRequires.map (fun p => (p.1, versionString p.2)) ++
  meta.alienShare.map (fun p => (p.1, versionString p.2)) ++
  meta.alienSystem.map (fun p => (p.1, versionString p.2))

/-- The claimed union: first writer per key wins, later writers never
overwrite. -/
def specFirstWins (pairs : List (Str × Str)) : List (Str × Str) :=
  pairs.foldl (fun acc p => if containsKeyA acc p.1 then acc else acc ++ [p]) []

/-- The constraint values recorded for one key, in priority order. -/
def valuesAtS (pairs : List (Str × Str)) (k : Str) : List Str :=
  (pairs.filter (fun p => decide (p.1 = k))).map (fun p => p.2)

/-- Effect of one write on the value recorded at a key: an empty recorded
value is overwritten, a non-empty one is kept. -/
def write1 (cur : Option Str) (v : Str) : Option Str :=
  match cur with
  | some w => if w = [] then some v else some w
  | none => some v

/-- The value at a key after processing a list of candidate values. -/
def stepVal (cur : Option Str) (vs : List Str) : Option Str :=
  match cur with
  | some v =>
    if v = [] then
      match vs.find? (fun x => decide (x ≠ [])) with
      | some w => some w
      | none => some []
    else some v
  | none =>
    match vs.find? (fun x => decide (x ≠ [])) with
    | some w => some w
    | none => if vs = [] then none else some []

/-- The flattened value a key receives: the first non-empty constraint
among its candidates in priority order, the empty constraint if the key
occurs but only with empty values, and nothing if the key never occurs. -/
def specValueAt (pairs : List (Str × Str)) (k : Str) : Option Str :=
  stepVal none (valuesAtS pairs k)

lemma lookupA_setA_self {β : Type} (m : List (Str × β)) (k : Str) (v : β) :
    lookupA (setA m k v) k = some v := by
  induction m with
  | nil => simp [setA, lookupA]
  | cons p m ih =>
    rcases p with ⟨k1, v1⟩
    by_cases h : k1 = k
    · simp [setA, lookupA, h]
    · simp [setA, lookupA, h, ih]

lemma lookupA_setA_ne {β : Type} (m : List (Str × β)) (k1 k : Str) (v : β)
    (h : k1 ≠ k) : lookupA (setA m k1 v) k = lookupA m k := by
  induction m with
  | nil => simp [setA, lookupA, h]
  | cons p m ih =>
    rcases p with ⟨k2, v2⟩
    by_cases h2 : k2 = k1
    · subst h2
      simp [setA, lookupA, h]
    · simp [setA, lookupA, h2, ih]

lemma lookupA_reqStepS (acc : List (Str × Str)) (p : Str × Str) (k : Str) :
    lookupA (reqStepS acc p) k =
      if p.1 = k then write1 (lookupA acc k) p.2 else lookupA acc k := by
  unfold reqStepS
  by_cases hk : p.1 = k
  · rw [if_pos hk, hk]
    rcases h : lookupA acc k with _ | v
    · rw [if_pos (by simp [lookupD, h]), lookupA_setA_self]
      simp [write1]
    · by_cases hv : v = []
      · subst hv
        rw [if_pos (by simp [lookupD, h]), lookupA_setA_self]
        simp [write1]
      · rw [if_neg (by simp [lookupD, h, hv]), h]
        simp [write1, hv]
  · rw [if_neg hk]
    split_ifs
    · exact lookupA_setA_ne acc p.1 k p.2 hk
    · rfl

lemma stepVal_nil (cur : Option Str) : stepVal cur [] = cur := by
  rcases cur with _ | v
  · rfl
  · by_cases hv : v = []
    · subst hv; rfl
    · simp [stepVal, hv]

lemma stepVal_cons (cur : Option Str) (v : Str) (vs : List Str) :
    stepVal cur (v :: vs) = stepVal (write1 cur v) vs := by
  rcases cur with _ | w
  · by_cases hv : v = []
    · subst hv
      simp [stepVal, write1, List.find?]
    · simp [stepVal, write1, List.find?, hv]
  · by_cases hw : w = []
    · subst hw
      by_cases hv : v = []
      · subst hv
        simp [stepVal, write1, List.find?]
      · simp [stepVal, write1, List.find?, hv]
    · simp [stepVal, write1, hw]

lemma valuesAtS_cons (p : Str × Str) (pairs : List (Str × Str)) (k : Str) :
    valuesAtS (p :: pairs) k =
      if p.1 = k then p.2 :: valuesAtS pairs k else valuesAtS pairs k := by
  unfold valuesAtS
  by_cases h : p.1 = k
  · simp [List.filter_cons, h]
  · simp [List.filter_cons, h]

lemma lookupA_foldl_reqStepS (pairs : List (Str × Str)) :
    ∀ (acc : List (Str × Str)) (k : Str),
    lookupA (pairs.foldl reqStepS acc) k =
      stepVal (lookupA acc k) (valuesAtS pairs k) := by
  induction pairs with
  | nil =>
    intro acc k
    show lookupA acc k = stepVal (lookupA acc k) (valuesAtS [] k)
    have h0 : valuesAtS [] k = [] := rfl
    rw [h0, stepVal_nil]
  | cons p pairs ih =>
    intro acc k
    rw [List.foldl_cons, ih (reqStepS acc p) k, lookupA_reqStepS acc p k,
      valuesAtS_cons p pairs k]
    by_cases h : p.1 = k
    · rw [if_pos h, if_pos h, stepVal_cons]
    · rw [if_neg h, if_neg h]

lemma foldl_reqStepS_joinL (ls : List (List (Str × Str))) :
    ∀ acc : List (Str × Str),
    (joinL ls).foldl reqStepS acc = ls.foldl (fun a l => l.foldl reqStepS a) acc := by
  induction ls with
  | nil => intro acc; rfl
  | cons l ls ih => intro acc; simp [joinL, List.foldl_append, ih]

lemma foldl_reqStep_map (m : List (Str × MVal)) (acc : List (Str × Str)) :
    m.foldl reqStep acc =
      (m.map (fun p => (p.1, versionString p.2))).foldl reqStepS acc := by
  rw [List.foldl_map]
  rfl

/-- The nested folds of `flattenPrereqs` equal one fold over the
prioritized flat pair list. -/
lemma flattenPrereqs_fusion (meta : MetaRawR) :
    flattenPrereqs meta = (specPairs meta).foldl reqStepS [] := by
  simp only [flattenPrereqs, specPairs]
  rw [List.foldl_append, List.foldl_append, List.foldl_append,
    List.foldl_append, List.foldl_append]
  rw [foldl_reqStepS_joinL, List.foldl_map]
  rw [foldl_reqStep_map meta.requires, foldl_reqStep_map meta.buildRequires,
    foldl_reqStep_map meta.configureRequires, foldl_reqStep_map meta.alienShare,
    foldl_reqStep_map meta.alienSystem]
  have hphase : (fun (acc : List (Str × Str)) (phase : Str) =>
      match lookupA meta.prereqs phase with
      | none => acc
      | some phaseReqs =>
        flattenDepTypes.foldl
          (fun acc2 dt =>
            match lookupA phaseReqs dt with
            | some (.pmap reqMap) => reqMap.foldl reqStep acc2
            | _ => acc2)
          acc) =
      fun acc phase => (specPhasePairs meta phase).foldl reqStepS acc := by
    funext acc phase
    unfold specPhasePairs
    rcases h : lookupA meta.prereqs phase with _ | phaseReqs
    · rfl
    · dsimp only
      rw [foldl_reqStepS_joinL, List.foldl_map]
      have hdt : (fun (acc2 : List (Str × Str)) (dt : Str) =>
          match lookupA phaseReqs dt with
          | some (.pmap reqMap) => reqMap.foldl reqStep acc2
          | _ => acc2) =
          fun acc2 dt => (specDtPairs phaseReqs dt).foldl reqStepS acc2 := by
        funext acc2 dt
        unfold specDtPairs
        rcases h2 : lookupA phaseReqs dt with _ | pv
        · rfl
        · rcases pv with reqMap | _
          · exact foldl_reqStep_map reqMap acc2
          · rfl
      rw [hdt]
  rw [hphase]
  simp only [List.foldl_map]

/-- C5 counterexample: an empty-string constraint written by the modern
schema is overwritten by the legacy `requires` map, so the flattening is
not the claimed first-writer-wins union. -/
theorem flattenPrereqs_counterexample :
    flattenPrereqs
      ⟨[(s2l "runtime", [(s2l "requires", .pmap [(s2l "Foo", .mstr [])])])],
        [(s2l "Foo", .mstr (s2l "1.0"))], [], [], [], []⟩ =
      [(s2l "Foo", s2l "1.0")] ∧
    specFirstWins (specPairs
      ⟨[(s2l "runtime", [(s2l "requires", .pmap [(s2l "Foo", .mstr [])])])],
        [(s2l "Foo", .mstr (s2l "1.0"))], [], [], [], []⟩) =
      [(s2l "Foo", [])] ∧
    flattenPrereqs
      ⟨[(s2l "runtime", [(s2l "requires", .pmap [(s2l "Foo", .mstr [])])])],
        [(s2l "Foo", .mstr (s2l "1.0"))], [], [], [], []⟩ ≠
    specFirstWins (specPairs
      ⟨[(s2l "runtime", [(s2l "requires", .pmap [(s2l "Foo", .mstr [])])])],
        [(s2l "Foo", .mstr (s2l "1.0"))], [], [], [], []⟩) := by
  decide

/-- C5 (amended).  For every key, the flattened requirements map records
the first non-empty coerced constraint among the prioritized sources
(modern prereqs over runtime, configure, build and requires, recommends,
suggests; then legacy requires, build_requires, configure_requires; then
x_alienfile share and system); a key all of whose writes are empty is
recorded with the empty constraint, and an earlier non-empty write is
never overwritten. -/
theorem flattenPrereqs_spec (meta : MetaRawR) (k : Str) :
    lookupA (flattenPrereqs meta) k = specValueAt (specPairs meta) k := by
  rw [flattenPrereqs_fusion meta, lookupA_foldl_reqStepS (specPairs meta) [] k]
  rfl

/-! ## Claim C10: every resolved key is in its record's provides -/

/-- The invariant of the resolved map: every module key is among the keys
of the provides of the record it is bound to. -/
def InvProvides (st : StateR) : Prop :=
  ∀ p ∈ st.resolved, containsKeyA p.2.provides p.1 = true

lemma lookupA_append {β : Type} (m1 m2 : List (Str × β)) (k : Str) :
    lookupA (m1 ++ m2) k =
      (match lookupA m1 k with
       | some v => some v
       | none => lookupA m2 k) := by
  induction m1 with
  | nil => rfl
  | cons p m1 ih =>
    rcases p with ⟨k1, v1⟩
    by_cases h : k1 = k
    · simp [lookupA, h]
    · simp [lookupA, h, ih]

lemma containsKeyA_append_right {β : Type} (m : List (Str × β)) (k : Str)
    (v : β) : containsKeyA (m ++ [(k, v)]) k = true := by
  unfold containsKeyA
  rw [lookupA_append]
  rcases h : lookupA m k with _ | w
  · simp [lookupA]
  · simp

lemma containsKeyA_of_mem {β : Type} (m : List (Str × β)) (k : Str) (v : β)
    (h : (k, v) ∈ m) : containsKeyA m k = true := by
  induction m with
  | nil => simp at h
  | cons p m ih =>
    rcases p with ⟨k1, v1⟩
    by_cases hk : k1 = k
    · simp [containsKeyA, lookupA, hk]
    · rcases List.mem_cons.mp h with he | hm
      · cases he; exact absurd rfl hk
      · simp [containsKeyA, lookupA, hk]
        have := ih hm
        simpa [containsKeyA] using this

lemma buildDist_provides_self (pathname source module : Str) (meta : MetaFileR) :
    containsKeyA (buildDist pathname source module meta).provides module = true := by
  simp only [buildDist]
  split_ifs with h
  · exact h
  · exact containsKeyA_append_right _ module meta.version

lemma fetchRecord_provides_self (env : EnvR) (m v : Str) (d : DistR)
    (h : fetchRecord env m v = some d) :
    containsKeyA d.provides m = true := by
  unfold fetchRecord at h
  rcases h2 : (match env.cpan m with
    | some entry =>
      if satisfies entry.version v then
        some (env.mirror ++ s2l "/authors/id/" ++ entry.pathname,
              entry.pathname, s2l "cpan")
      else
        match env.backpan m v with
        | some url => some (url, extractPathname url, s2l "backpan")
        | none => none
    | none =>
      match env.backpan m v with
      | some url => some (url, extractPathname url, s2l "backpan")
      | none => none : Option (Str × Str × Str)) with _ | sel
  · rw [h2] at h
    simp at h
  · rw [h2] at h
    rcases sel with ⟨url, pathname, source⟩
    dsimp only at h
    split_ifs at h <;>
      first
        | (injection h with h4
           rw [← h4]
           exact buildDist_provides_self _ _ _ _)
        | simp at h

lemma mem_setA {β : Type} (m : List (Str × β)) (k : Str) (v : β)
    (p : Str × β) (h : p ∈ setA m k v) : p ∈ m ∨ p = (k, v) := by
  induction m with
  | nil =>
    simp [setA] at h
    exact Or.inr h
  | cons q m ih =>
    rcases q with ⟨k1, v1⟩
    by_cases hk : k1 = k
    · rw [setA, if_pos hk] at h
      rcases List.mem_cons.mp h with he | hm
      · subst hk
        exact Or.inr he
      · exact Or.inl (List.mem_cons_of_mem _ hm)
    · rw [setA, if_neg hk] at h
      rcases List.mem_cons.mp h with he | hm
      · exact Or.inl (he ▸ List.mem_cons_self _ _)
      · rcases ih hm with h3 | h3
        · exact Or.inl (List.mem_cons_of_mem _ h3)
        · exact Or.inr h3

lemma mem_bindProvides_aux (d : DistR) :
    ∀ (l : List (Str × Str)) (acc : List (Str × DistR)),
    (∀ q ∈ l, q ∈ d.provides) →
    ∀ p ∈ l.foldl
      (fun acc2 q => if containsKeyA acc2 q.1 then acc2 else acc2 ++ [(q.1, d)])
      acc,
    p ∈ acc ∨ (p.2 = d ∧ containsKeyA d.provides p.1 = true) := by
  intro l
  induction l with
  | nil => intro acc _ p hp; exact Or.inl hp
  | cons q l ih =>
    intro acc hq p hp
    rw [List.foldl_cons] at hp
    have hql : ∀ r ∈ l, r ∈ d.provides := fun r hr =>
      hq r (List.mem_cons_of_mem q hr)
    rcases ih _ hql p hp with hin | hgood
    · by_cases hc : containsKeyA acc q.1 = true
      · rw [if_pos hc] at hin
        exact Or.inl hin
      · rw [if_neg hc] at hin
        rcases List.mem_append.mp hin with h3 | h3
        · exact Or.inl h3
        · rcases List.mem_singleton.mp h3 with rfl
          refine Or.inr ⟨rfl, ?_⟩
          exact containsKeyA_of_mem d.provides q.1 q.2
            (by simpa using hq q (List.mem_cons_self q l))
    · exact Or.inr hgood

lemma mem_bindProvides (res : List (Str × DistR)) (d : DistR)
    (p : Str × DistR) (h : p ∈ bindProvides res d) :
    p ∈ res ∨ (p.2 = d ∧ containsKeyA d.provides p.1 = true) :=
  mem_bindProvides_aux d d.provides res (fun _ hq => hq) p h

lemma foldl_resolve_none (step : StateR → Str → Str → Option StateR) :
    ∀ (reqs : List (Str × Str)),
    reqs.foldl
      (fun acc p =>
        match acc with
        | none => none
        | some s => step s p.1 p.2)
      none = none := by
  intro reqs
  induction reqs with
  | nil => rfl
  | cons r reqs ih => simpa using ih

lemma foldl_resolve_preserve (P : StateR → Prop)
    (step : StateR → Str → Str → Option StateR)
    (hstep : ∀ st m v st2, P st → step st m v = some st2 → P st2) :
    ∀ (reqs : List (Str × Str)) (st0 st3 : StateR), P st0 →
    reqs.foldl
      (fun acc p =>
        match acc with
        | none => none
        | some s => step s p.1 p.2)
      (some st0) = some st3 → P st3 := by
  intro reqs
  induction reqs with
  | nil =>
    intro st0 st3 h0 hf
    cases hf
    exact h0
  | cons r reqs ih =>
    intro st0 st3 h0 hf
    rw [List.foldl_cons] at hf
    dsimp only at hf
    rcases hs : step st0 r.1 r.2 with _ | st1
    · rw [hs] at hf
      rw [foldl_resolve_none] at hf
      cases hf
    · rw [hs] at hf
      exact ih st1 st3 (hstep st0 r.1 r.2 st1 h0 hs) hf

/-- C10.  After every successful `resolveOne` call, every entry (M, R) of
the resolved map has M among the keys of R's provides; in particular the
requested module key is inserted into the record's provides (with the
meta-level version) before the record is bound, so the satisfies check on
a later lookup always reads a present provides entry. -/
theorem resolveOne_provides_invariant (fuel : Nat) (env : EnvR) :
    ∀ (st : StateR) (m v : Str) (st2 : StateR), InvProvides st →
      resolveOne fuel env st m v = some st2 → InvProvides st2 := by
  induction fuel with
  | zero =>
    intro st m v st2 _ h
    simp [resolveOne] at h
  | succ fuel ih =>
    intro st m v st2 hInv h
    unfold resolveOne at h
    split_ifs at h with h1 h2 h3
    · cases h; exact hInv
    · cases h; exact hInv
    · cases h; exact hInv
    · rcases hf : fetchRecord env m v with _ | d
      · rw [hf] at h
        simp at h
      · rw [hf] at h
        dsimp only at h
        rcases hd : (d.requirements.foldl
            (fun acc p =>
              match acc with
              | none => none
              | some st2 => resolveOne fuel env st2 p.1 p.2)
            (some (⟨bindProvides (setA st.resolved m d) d,
                    m :: st.resolving⟩ : StateR))) with _ | st3
      
        · rw [hd] at h
          simp at h
        · rw [hd] at h
          rcases Option.some.inj h with rfl
          have hInit : InvProvides
              ⟨bindProvides (setA st.resolved m d) d, m :: st.resolving⟩ := by
            intro p hp
            rcases mem_bindProvides _ d p hp with hin | ⟨he, hc⟩
            · rcases mem_setA st.resolved m d p hin with h4 | h4
              · exact hInv p h4
              · rw [h4]
                exact fetchRecord_provides_self env m v d hf
            · rw [he]
              exact hc
          have h5 := foldl_resolve_preserve InvProvides (resolveOne fuel env)
            (fun st m v st2 => ih st m v st2) d.requirements _ st3 hInit hd
          intro p hp
          exact h5 p hp

/-- Witness record for C10: the record `envCoreCx` resolves for `Foo`. -/
def dFooW : DistR :=
  ⟨s2l "Foo-1.0", s2l "F/FO/FOO/Foo-1.0.tar.gz",
    [(s2l "Foo", s2l "1.0"), (s2l "Carp", s2l "1.0")], [], s2l "cpan"⟩

/-- Witness for C10 at a concrete resolution. -/
theorem resolveOne_provides_invariant_witness :
    InvProvides ⟨[(s2l "Foo", dFooW), (s2l "Carp", dFooW)], []⟩ :=
  resolveOne_provides_invariant 2 envCoreCx ⟨[], []⟩ (s2l "Foo") (s2l "")
    ⟨[(s2l "Foo", dFooW), (s2l "Carp", dFooW)], []⟩
    (by intro p hp; simp at hp) (by decide)

/-! ## Claim C1: what happens when a bound record does not satisfy -/

lemma bindProvides_lookup_preserve (d1 : DistR) (m : Str) (d : DistR) :
    ∀ (l : List (Str × Str)) (acc : List (Str × DistR)),
    lookupA acc m = some d →
    lookupA
      (l.foldl
        (fun acc2 q => if containsKeyA acc2 q.1 then acc2 else acc2 ++ [(q.1, d1)])
        acc) m = some d := by
  intro l
  induction l with
  | nil => intro acc h; exact h
  | cons q l ih =>
    intro acc h
    rw [List.foldl_cons]
    apply ih
    split_ifs
    · exact h
    · rw [lookupA_append, h]

lemma lookupA_bindProvides_of_some (res : List (Str × DistR)) (d1 : DistR)
    (m : Str) (d : DistR) (h : lookupA res m = some d) :
    lookupA (bindProvides res d1) m = some d :=
  bindProvides_lookup_preserve d1 m d d1.provides res h

lemma mem_removeStr_of_ne (l : List Str) (x m : Str) (hne : m ≠ x)
    (h : m ∈ l) : m ∈ removeStr l x := by
  unfold removeStr
  rw [List.mem_filter]
  exact ⟨h, by simp [hne]⟩

/-- During any successful nested resolution, a module that is on the
resolving stack keeps both its stack membership and its binding in the
resolved map: inner calls on the same module are cut off by the cycle
check, and inner calls on other modules never overwrite an existing
binding. -/
lemma resolveOne_preserves_binding (fuel : Nat) (env : EnvR) :
    ∀ (st : StateR) (x w : Str) (st2 : StateR) (m : Str) (d : DistR),
    m ∈ st.resolving → lookupA st.resolved m = some d →
    resolveOne fuel env st x w = some st2 →
    m ∈ st2.resolving ∧ lookupA st2.resolved m = some d := by
  induction fuel with
  | zero =>
    intro st x w st2 m d _ _ h
    simp [resolveOne] at h
  | succ fuel ih =>
    intro st x w st2 m d hmem hbind h
    unfold resolveOne at h
    split_ifs at h with h1 h2 h3
    · cases h; exact ⟨hmem, hbind⟩
    · cases h; exact ⟨hmem, hbind⟩
    · cases h; exact ⟨hmem, hbind⟩
    · have hmx : m ≠ x := fun he => h3 (he ▸ hmem)
      rcases hf : fetchRecord env x w with _ | d1
      · rw [hf] at h
        simp at h
      · rw [hf] at h
        dsimp only at h
        rcases hd : (d1.requirements.foldl
            (fun acc p =>
              match acc with
              | none => none
              | some st2 => resolveOne fuel env st2 p.1 p.2)
            (some (⟨bindProvides (setA st.resolved x d1) d1,
                    x :: st.resolving⟩ : StateR))) with _ | st3
        · rw [hd] at h
          simp at h
        · rw [hd] at h
          rcases Option.some.inj h with rfl
          have hP : ∀ s : StateR, (m ∈ s.resolving ∧ lookupA s.resolved m = some d) →
              True := fun _ _ => trivial
          have hInit : m ∈ (x :: st.resolving) ∧
              lookupA (bindProvides (setA st.resolved x d1) d1) m = some d := by
            refine ⟨List.mem_cons_of_mem x hmem, ?_⟩
            apply lookupA_bindProvides_of_some
            rw [lookupA_setA_ne st.resolved x m d1 (fun he => hmx he.symm)]
            exact hbind
          have h5 := foldl_resolve_preserve
            (fun s => m ∈ s.resolving ∧ lookupA s.resolved m = some d)
            (resolveOne fuel env)
            (fun s a b s4 hs hr => ih s a b s4 m d hs.1 hs.2 hr)
            d1.requirements _ st3 hInit hd
          exact ⟨mem_removeStr_of_ne st3.resolving x m hmx h5.1, h5.2⟩

/-- Environment for the C1 counterexample and witness: the index now
carries `Foo` at version 2.5. -/
def envReC1 : EnvR :=
  { cpan := fun m =>
      if m = s2l "Foo" then
        some ⟨s2l "Foo", s2l "2.5", s2l "F/FO/FOO/Foo-2.5.tar.gz"⟩
      else none
  , mirror := s2l "https://m"
  , backpan := fun _ _ => none
  , backpanLocal := fun u => u
  , cacheDir := s2l "/c"
  , download := fun _ _ => true
  , extract := fun p =>
      if p = s2l "/c/F/FO/FOO/Foo-2.5.tar.gz" then
        some ⟨s2l "Foo-2.5", s2l "2.5", [(s2l "Foo", ⟨[], s2l "2.5"⟩)], []⟩
      else none }

/-- The record bound to `Foo` before the second call (provides 1.0). -/
def dOldC1 : DistR :=
  ⟨s2l "Foo-1.0", s2l "F/FO/FOO/Foo-1.0.tar.gz", [(s2l "Foo", s2l "1.0")], [],
    s2l "cpan"⟩

/-- The record the second call constructs (provides 2.5). -/
def dNewC1 : DistR :=
  ⟨s2l "Foo-2.5", s2l "F/FO/FOO/Foo-2.5.tar.gz", [(s2l "Foo", s2l "2.5")], [],
    s2l "cpan"⟩

/-- C1 counterexample: with `Foo` bound to a record whose provided version
1.0 does not satisfy `>= 2.0`, `resolveOne` re-resolves and rebinds `Foo`
to a new record instead of leaving the binding unchanged. -/
theorem resolveOne_rebind_counterexample :
    satisfies (lookupD dOldC1.provides (s2l "Foo")) (s2l ">= 2.0") = false ∧
    (resolveOne 2 envReC1 ⟨[(s2l "Foo", dOldC1)], []⟩ (s2l "Foo")
        (s2l ">= 2.0")).map (fun st => lookupA st.resolved (s2l "Foo")) =
      some (some dNewC1) ∧
    dNewC1 ≠ dOldC1 := by
  decide

/-- C1 (amended).  When the bound record's provided version does not
satisfy the new constraint (and the module is neither core nor already on
the resolving stack), a successful `resolveOne` re-resolves the module:
the resolved map afterwards binds it to the freshly fetched record
(later-writer-wins for the requested key). -/
theorem resolveOne_rebinds (fuel : Nat) (env : EnvR) (st : StateR)
    (m v : Str) (d0 : DistR) (st2 : StateR)
    (hcore : isCore m = false)
    (hbound : lookupA st.resolved m = some d0)
    (hnosat : satisfies (lookupD d0.provides m) v = false)
    (hres : m ∉ st.resolving)
    (hok : resolveOne (fuel + 1) env st m v = some st2) :
    ∃ d, fetchRecord env m v = some d ∧ lookupA st2.resolved m = some d := by
  unfold resolveOne at hok
  rw [hbound] at hok
  dsimp only at hok
  rw [if_neg (by simp [hcore]), if_neg (by simp [hnosat]), if_neg hres] at hok
  rcases hf : fetchRecord env m v with _ | d
  · rw [hf] at hok
    simp at hok
  · rw [hf] at hok
    dsimp only at hok
    rcases hd : (d.requirements.foldl
        (fun acc p =>
          match acc with
          | none => none
          | some st2 => resolveOne fuel env st2 p.1 p.2)
        (some (⟨bindProvides (setA st.resolved m d) d,
                m :: st.resolving⟩ : StateR))) with _ | st3
    · rw [hd] at hok
      simp at hok
    · rw [hd] at hok
      rcases Option.some.inj hok with rfl
      refine ⟨d, rfl, ?_⟩
      have hInit : m ∈ (m :: st.resolving) ∧
          lookupA (bindProvides (setA st.resolved m d) d) m = some d := by
        refine ⟨List.mem_cons_self m st.resolving, ?_⟩
        apply lookupA_bindProvides_of_some
        exact lookupA_setA_self st.resolved m d
      have h5 := foldl_resolve_preserve
        (fun s => m ∈ s.resolving ∧ lookupA s.resolved m = some d)
        (resolveOne fuel env)
        (fun s a b s4 hs hr =>
          resolveOne_preserves_binding fuel env s a b s4 m d hs.1 hs.2 hr)
        d.requirements _ st3 hInit hd
      exact h5.2

/-- Witness for the amended C1 at the counterexample instance. -/
theorem resolveOne_rebinds_witness :
    ∃ d, fetchRecord envReC1 (s2l "Foo") (s2l ">= 2.0") = some d ∧
      lookupA (⟨[(s2l "Foo", dNewC1)], []⟩ : StateR).resolved (s2l "Foo") =
        some d :=
  resolveOne_rebinds 1 envReC1 ⟨[(s2l "Foo", dOldC1)], []⟩ (s2l "Foo")
    (s2l ">= 2.0") dOldC1 ⟨[(s2l "Foo", dNewC1)], []⟩ (by decide) (by decide)
    (by decide) (by decide) (by decide)

/-! ## Claim C3: snapshot round trip -/

/-- The record as the snapshot represents it: everything except the source
tag, which the format does not carry. -/
def eraseSource (d : DistR) : DistR :=
  ⟨d.name, d.pathname, d.provides, d.requirements, []⟩

/-- One emitted module line. -/
def entryLine (p : Str × Str) : Str := s2l "      " ++ p.1 ++ ' ' :: p.2

/-- The section the parser is in after the lines of one record. -/
def finalSec (d : DistR) : SecR :=
  if d.requirements = [] then
    (if d.provides = [] then SecR.noSec else SecR.inProvides)
  else SecR.inRequirements

/-- A module key as the `(\S+)` group of `moduleVerRe` can carry it:
nonempty and free of Go `\s` whitespace. -/
def goodKey (k : Str) : Prop :=
  k ≠ [] ∧ k.all (fun c => !isGoWS c) = true

/-- Records the emitted snapshot can represent faithfully: a nonempty
whitespace-free name (`distNameRe` rejects anything else), a nonempty
pathname (`pathnameRe` needs `(.+)`), fields free of `\n` and `\r` (so
the line scanner is exact on the joined text), whitespace-free nonempty
module keys, nonempty provides versions, requirement constraints fixed by
the normalizer, and both maps strictly sorted by key. -/
def WFdist (d : DistR) : Prop :=
  (d.name ≠ [] ∧ d.name.all (fun c => !isGoWS c) = true) ∧
  (d.pathname ≠ [] ∧ '\n' ∉ d.pathname ∧ '\r' ∉ d.pathname) ∧
  (∀ p ∈ d.provides, goodKey p.1 ∧ (p.2 ≠ [] ∧ '\n' ∉ p.2 ∧ '\r' ∉ p.2)) ∧
  (∀ p ∈ d.requirements, goodKey p.1 ∧
    (p.2 ≠ [] ∧ normalizeVersionSnap p.2 = p.2 ∧ '\n' ∉ p.2 ∧ '\r' ∉ p.2)) ∧
  List.Pairwise (fun a b => ltStr a b = true) (d.provides.map (fun p => p.1)) ∧
  List.Pairwise (fun a b => ltStr a b = true) (d.requirements.map (fun p => p.1))

lemma ltStr_irrefl (a : Str) : ltStr a a = false := by
  induction a with
  | nil => rfl
  | cons c cs ih => simp [ltStr, lt_irrefl, ih]

lemma ne_of_ltStr (a b : Str) (h : ltStr a b = true) : a ≠ b := by
  intro he
  rw [he, ltStr_irrefl] at h
  exact Bool.noConfusion h

lemma sortStrs_pairwise_id (l : List Str)
    (h : List.Pairwise (fun a b => ltStr a b = true) l) : sortStrs l = l := by
  induction l with
  | nil => rfl
  | cons x l ih =>
    rcases List.pairwise_cons.mp h with ⟨hx, hl⟩
    show insertStr x (sortStrs l) = x :: l
    rw [ih hl]
    cases l with
    | nil => rfl
    | cons y l2 => simp [insertStr, hx y (List.mem_cons_self y l2)]

lemma sortDists_pairwise_id (ds : List DistR)
    (h : List.Pairwise (fun a b => ltStr a.name b.name = true) ds) :
    sortDists ds = ds := by
  induction ds with
  | nil => rfl
  | cons x ds ih =>
    rcases List.pairwise_cons.mp h with ⟨hx, hl⟩
    show insertDist x (sortDists ds) = x :: ds
    rw [ih hl]
    cases ds with
    | nil => rfl
    | cons y ds2 => simp [insertDist, hx y (List.mem_cons_self y ds2)]

lemma mapKeys_lookupD (f : Str → Str → Str) (m : List (Str × Str))
    (h : List.Pairwise (fun a b => ltStr a b = true) (m.map (fun p => p.1))) :
    (m.map (fun p => p.1)).map (fun k => f k (lookupD m k)) =
      m.map (fun p => f p.1 p.2) := by
  induction m with
  | nil => rfl
  | cons q m ih =>
    rcases q with ⟨k0, v0⟩
    rw [List.map_cons] at h
    rcases List.pairwise_cons.mp h with ⟨hk0, hm⟩
    rw [List.map_cons, List.map_cons, List.map_cons]
    have h1 : lookupD ((k0, v0) :: m) k0 = v0 := by simp [lookupD, lookupA]
    rw [h1]
    congr 1
    have h2 : ∀ k ∈ m.map (fun p => p.1),
        f k (lookupD ((k0, v0) :: m) k) = f k (lookupD m k) := by
      intro k hk
      have hne : k0 ≠ k := ne_of_ltStr k0 k (hk0 k hk)
      simp [lookupD, lookupA, hne]
    rw [List.map_congr_left h2, ih hm]

lemma emitProvBlock_eq (d : DistR) (hpv : ∀ p ∈ d.provides, p.2 ≠ [])
    (hps : List.Pairwise (fun a b => ltStr a b = true)
      (d.provides.map (fun p => p.1))) :
    (if d.provides = [] then [] else
      s2l "    provides:" :: (sortedKeysA d.provides).map (provLine d.provides)) =
    (if d.provides = [] then [] else
      s2l "    provides:" :: d.provides.map entryLine) := by
  by_cases hp : d.provides = []
  · rw [if_pos hp, if_pos hp]
  · rw [if_neg hp, if_neg hp]
    congr 1
    unfold sortedKeysA
    rw [sortStrs_pairwise_id _ hps]
    have he : List.map (provLine d.provides) (List.map (fun p => p.1) d.provides) =
        List.map (fun k => (fun k2 v => s2l "      " ++ k2 ++ ' ' ::
          (if v = [] then s2l "undef" else v)) k (lookupD d.provides k))
          (List.map (fun p => p.1) d.provides) := rfl
    rw [he, mapKeys_lookupD (fun k2 v => s2l "      " ++ k2 ++ ' ' ::
      (if v = [] then s2l "undef" else v)) d.provides hps]
    apply List.map_congr_left
    intro p hp2
    have hv := hpv p hp2
    simp [entryLine, hv]

lemma emitReqBlock_eq (d : DistR)
    (hrv : ∀ p ∈ d.requirements, normalizeVersionSnap p.2 = p.2)
    (hrs : List.Pairwise (fun a b => ltStr a b = true)
      (d.requirements.map (fun p => p.1))) :
    (if d.requirements = [] then [] else
      s2l "    requirements:" ::
        (sortedKeysA d.requirements).map (reqLine d.requirements)) =
    (if d.requirements = [] then [] else
      s2l "    requirements:" :: d.requirements.map entryLine) := by
  by_cases hr : d.requirements = []
  · rw [if_pos hr, if_pos hr]
  · rw [if_neg hr, if_neg hr]
    congr 1
    unfold sortedKeysA
    rw [sortStrs_pairwise_id _ hrs]
    have he : List.map (reqLine d.requirements)
        (List.map (fun p => p.1) d.requirements) =
        List.map (fun k => (fun k2 v => s2l "      " ++ k2 ++ ' ' ::
          normalizeVersionSnap v) k (lookupD d.requirements k))
          (List.map (fun p => p.1) d.requirements) := rfl
    rw [he, mapKeys_lookupD (fun k2 v => s2l "      " ++ k2 ++ ' ' ::
      normalizeVersionSnap v) d.requirements hrs]
    apply List.map_congr_left
    intro p hp2
    have hv := hrv p hp2
    simp [entryLine, hv]

/-- Under well-formedness, the lines of one record have an explicit normal
form with one `entryLine` per map entry, in map order. -/
lemma emitDistLines_eq (d : DistR) (hwf : WFdist d) :
    emitDistLines d =
      (s2l "  " ++ d.name) :: (s2l "    pathname: " ++ d.pathname) ::
      ((if d.provides = [] then [] else
          s2l "    provides:" :: d.provides.map entryLine) ++
       (if d.requirements = [] then [] else
          s2l "    requirements:" :: d.requirements.map entryLine)) := by
  rcases hwf with ⟨_, _, hpv, hrv, hps, hrs⟩
  unfold emitDistLines
  rw [emitProvBlock_eq d (fun p hp2 => ((hpv p hp2).2.1)) hps,
    emitReqBlock_eq d (fun p hp2 => ((hrv p hp2).2.2.1)) hrs]


lemma takeWhile_key (m v : Str) (hmw : m.all (fun c => !isGoWS c) = true) :
    (m ++ ' ' :: v).takeWhile (fun c => !isGoWS c) = m ∧
    (m ++ ' ' :: v).dropWhile (fun c => !isGoWS c) = ' ' :: v := by
  induction m with
  | nil => exact ⟨rfl, rfl⟩
  | cons c m ih =>
    rw [List.all_cons, Bool.and_eq_true] at hmw
    rcases hmw with ⟨hc, hm2⟩
    rcases ih hm2 with ⟨h1, h2⟩
    constructor
    · rw [List.cons_append, List.takeWhile_cons, if_pos hc, h1]
    · rw [List.cons_append, List.dropWhile_cons, if_pos hc]
      exact h2

lemma parseLine_nil (st : PStateR) : parseLine st [] = st := rfl

lemma parseLine_header1 (st : PStateR) :
    parseLine st (s2l "# carton snapshot format: version 1.0") = st := rfl

lemma parseLine_marker (st : PStateR) :
    parseLine st (s2l "DISTRIBUTIONS") = st := rfl

lemma parseLine_prov_header (done : List DistR) (d : DistR) (sec : SecR) :
    parseLine ⟨done, some d, sec⟩ (s2l "    provides:") =
      ⟨done, some d, SecR.inProvides⟩ := rfl

lemma parseLine_req_header (done : List DistR) (d : DistR) (sec : SecR) :
    parseLine ⟨done, some d, sec⟩ (s2l "    requirements:") =
      ⟨done, some d, SecR.inRequirements⟩ := rfl

lemma parseLine_path (done : List DistR) (d : DistR) (sec : SecR) (p : Str)
    (hp : p ≠ []) :
    parseLine ⟨done, some d, sec⟩ (s2l "    pathname: " ++ p) =
      ⟨done, some { d with pathname := p }, sec⟩ := by
  cases p with
  | nil => exact absurd rfl hp
  | cons c cs => rfl

lemma parseLine_name (done : List DistR) (cur : Option DistR) (sec : SecR)
    (c : Char) (rest : Str)
    (hall : (c :: rest).all (fun x => !isGoWS x) = true) :
    parseLine ⟨done, cur, sec⟩ (s2l "  " ++ (c :: rest)) =
      ⟨done ++ flushCur cur, some ⟨c :: rest, [], [], [], []⟩, SecR.noSec⟩ := by
  have h1 : matchDistName (s2l "  " ++ (c :: rest)) = some (c :: rest) := by
    unfold matchDistName
    rw [if_pos ⟨isPrefixOf_append_self (s2l "  ") (c :: rest),
      List.cons_ne_nil c rest, hall⟩]
    rfl
  unfold parseLine
  rw [h1]
  rfl

lemma parseLine_entry (done : List DistR) (d : DistR) (sec : SecR) (m v : Str)
    (hm : m ≠ []) (hmw : m.all (fun c => !isGoWS c) = true) (hv : v ≠ []) :
    parseLine ⟨done, some d, sec⟩ (s2l "      " ++ (m ++ ' ' :: v)) =
      (match sec with
       | SecR.inProvides =>
         ⟨done, some { d with provides := setA d.provides m v }, sec⟩
       | SecR.inRequirements =>
         ⟨done, some { d with requirements := setA d.requirements m v }, sec⟩
       | SecR.noSec => ⟨done, some d, sec⟩) := by
  have h3 : matchModuleVer (s2l "      " ++ (m ++ ' ' :: v)) = some (m, v) := by
    unfold matchModuleVer
    rw [if_pos (show strStarts (s2l "      " ++ (m ++ ' ' :: v))
      (s2l "      ") = true from isPrefixOf_append_self (s2l "      ")
      (m ++ ' ' :: v))]
    dsimp only
    rw [show (s2l "      " ++ (m ++ ' ' :: v)).drop 6 = m ++ ' ' :: v from rfl,
      (takeWhile_key m v hmw).1, (takeWhile_key m v hmw).2]
    dsimp only
    rw [if_pos ⟨hm, rfl, hv⟩]
  unfold parseLine
  rw [h3]
  cases sec <;> rfl

/-- A Go map write with a fresh key appends the binding. -/
lemma setA_not_contains {β : Type} (m : List (Str × β)) (k : Str) (v : β)
    (h : containsKeyA m k = false) : setA m k v = m ++ [(k, v)] := by
  induction m with
  | nil => rfl
  | cons p rest ih =>
    rcases p with ⟨k1, v1⟩
    by_cases hk : k1 = k
    · exfalso
      have h2 : containsKeyA ((k1, v1) :: rest) k = true := by
        simp [containsKeyA, lookupA, hk]
      rw [h] at h2
      exact Bool.noConfusion h2
    · have h2 : containsKeyA rest k = false := by
        simpa [containsKeyA, lookupA, hk] using h
      simp [setA, hk, ih h2]

lemma containsKeyA_append_singleton {β : Type} (m : List (Str × β))
    (k q : Str) (v : β) (h1 : containsKeyA m q = false) (h2 : k ≠ q) :
    containsKeyA (m ++ [(k, v)]) q = false := by
  unfold containsKeyA
  rw [lookupA_append]
  unfold containsKeyA at h1
  rcases hq : lookupA m q with _ | w
  · simp [lookupA, h2]
  · rw [hq] at h1
    exact Bool.noConfusion h1

lemma foldl_entries_prov (done : List DistR) (d : DistR)
    (l : List (Str × Str))
    (hl : ∀ p ∈ l, (p.1 ≠ [] ∧ p.1.all (fun c => !isGoWS c) = true) ∧ p.2 ≠ [])
    (hfresh : ∀ p ∈ l, containsKeyA d.provides p.1 = false)
    (hnd : List.Pairwise (fun a b => a.1 ≠ b.1) l) :
    (l.map entryLine).foldl parseLine ⟨done, some d, SecR.inProvides⟩ =
      ⟨done, some { d with provides := d.provides ++ l },
        SecR.inProvides⟩ := by
  induction l generalizing d with
  | nil => simp
  | cons p l ih =>
    obtain ⟨⟨hp1, hp2⟩, hp3⟩ := hl p (List.mem_cons_self p l)
    have he : entryLine p = s2l "      " ++ (p.1 ++ ' ' :: p.2) := by
      simp [entryLine, List.append_assoc]
    rw [List.map_cons, List.foldl_cons, he,
      parseLine_entry done d SecR.inProvides p.1 p.2 hp1 hp2 hp3]
    dsimp only
    rw [setA_not_contains _ _ _ (hfresh p (List.mem_cons_self p l))]
    rcases List.pairwise_cons.mp hnd with ⟨hph, hpt⟩
    rw [ih _ (fun q hq => hl q (List.mem_cons_of_mem p hq))
      (fun q hq => containsKeyA_append_singleton _ _ _ _
        (hfresh q (List.mem_cons_of_mem p hq)) (hph q hq)) hpt]
    simp [List.append_assoc]

lemma foldl_entries_req (done : List DistR) (d : DistR)
    (l : List (Str × Str))
    (hl : ∀ p ∈ l, (p.1 ≠ [] ∧ p.1.all (fun c => !isGoWS c) = true) ∧ p.2 ≠ [])
    (hfresh : ∀ p ∈ l, containsKeyA d.requirements p.1 = false)
    (hnd : List.Pairwise (fun a b => a.1 ≠ b.1) l) :
    (l.map entryLine).foldl parseLine ⟨done, some d, SecR.inRequirements⟩ =
      ⟨done, some { d with requirements := d.requirements ++ l },
        SecR.inRequirements⟩ := by
  induction l generalizing d with
  | nil => simp
  | cons p l ih =>
    obtain ⟨⟨hp1, hp2⟩, hp3⟩ := hl p (List.mem_cons_self p l)
    have he : entryLine p = s2l "      " ++ (p.1 ++ ' ' :: p.2) := by
      simp [entryLine, List.append_assoc]
    rw [List.map_cons, List.foldl_cons, he,
      parseLine_entry done d SecR.inRequirements p.1 p.2 hp1 hp2 hp3]
    dsimp only
    rw [setA_not_contains _ _ _ (hfresh p (List.mem_cons_self p l))]
    rcases List.pairwise_cons.mp hnd with ⟨hph, hpt⟩
    rw [ih _ (fun q hq => hl q (List.mem_cons_of_mem p hq))
      (fun q hq => containsKeyA_append_singleton _ _ _ _
        (hfresh q (List.mem_cons_of_mem p hq)) (hph q hq)) hpt]
    simp [List.append_assoc]

/-- Folding the parser over the emitted lines of one well-formed record
finishes any open record and rebuilds this one without its source tag. -/
lemma parse_dist (done : List DistR) (cur : Option DistR) (sec : SecR)
    (d : DistR) (hwf : WFdist d) :
    (emitDistLines d).foldl parseLine ⟨done, cur, sec⟩ =
      ⟨done ++ flushCur cur, some (eraseSource d), finalSec d⟩ := by
  obtain ⟨⟨hn0, hnall⟩, ⟨hpne, _, _⟩, hpv, hrv, hps, hrs⟩ := id hwf
  rw [emitDistLines_eq d hwf]
  have hpk : ∀ p ∈ d.provides,
      (p.1 ≠ [] ∧ p.1.all (fun c => !isGoWS c) = true) ∧ p.2 ≠ [] :=
    fun p hp => ⟨(hpv p hp).1, (hpv p hp).2.1⟩
  have hrk : ∀ p ∈ d.requirements,
      (p.1 ≠ [] ∧ p.1.all (fun c => !isGoWS c) = true) ∧ p.2 ≠ [] :=
    fun p hp => ⟨(hrv p hp).1, (hrv p hp).2.1⟩
  have hpnd : List.Pairwise (fun a b => a.1 ≠ b.1) d.provides :=
    (List.pairwise_map.mp hps).imp (fun h => ne_of_ltStr _ _ h)
  have hrnd : List.Pairwise (fun a b => a.1 ≠ b.1) d.requirements :=
    (List.pairwise_map.mp hrs).imp (fun h => ne_of_ltStr _ _ h)
  rcases hd : d.name with _ | ⟨c, rest⟩
  · exact absurd hd hn0
  · rw [hd] at hnall
    rw [List.foldl_cons, parseLine_name done cur sec c rest hnall,
      List.foldl_cons, parseLine_path _ _ _ d.pathname hpne]
    dsimp only
    rw [List.foldl_append]
    by_cases hp : d.provides = [] <;> by_cases hr : d.requirements = []
    · rw [if_pos hp, if_pos hr]
      simp [eraseSource, finalSec, hp, hr, hd]
    · rw [if_pos hp, if_neg hr, List.foldl_nil, List.foldl_cons,
        parseLine_req_header, foldl_entries_req _ _ _ hrk
          (fun q hq => by rfl) hrnd]
      simp [eraseSource, finalSec, hp, hr, hd]
    · rw [if_neg hp, if_pos hr, List.foldl_nil, List.foldl_cons,
        parseLine_prov_header, foldl_entries_prov _ _ _ hpk
          (fun q hq => by rfl) hpnd]
      simp [eraseSource, finalSec, hp, hr, hd]
    · rw [if_neg hp, if_neg hr, List.foldl_cons, List.foldl_cons,
        parseLine_prov_header, foldl_entries_prov _ _ _ hpk
          (fun q hq => by rfl) hpnd,
        parseLine_req_header, foldl_entries_req _ _ _ hrk
          (fun q hq => by rfl) hrnd]
      simp [eraseSource, finalSec, hp, hr, hd]

/-- Folding the parser over the concatenated record blocks accumulates the
records with their source tags erased. -/
lemma parse_emit_aux (ds : List DistR) (hwf : ∀ d ∈ ds, WFdist d)
    (done : List DistR) (cur : Option DistR) (sec : SecR) :
    ((ds.foldr (fun d acc => emitDistLines d ++ acc) []).foldl
        parseLine ⟨done, cur, sec⟩).done ++
      flushCur ((ds.foldr (fun d acc => emitDistLines d ++ acc) []).foldl
        parseLine ⟨done, cur, sec⟩).cur =
      done ++ flushCur cur ++ ds.map eraseSource := by
  induction ds generalizing done cur sec with
  | nil => simp [flushCur]
  | cons d ds ih =>
    rw [List.foldr_cons, List.foldl_append,
      parse_dist done cur sec d (hwf d (List.mem_cons_self d ds)),
      ih (fun x hx => hwf x (List.mem_cons_of_mem d hx))]
    simp [flushCur, List.append_assoc]

lemma mem_emit_foldr {l : Str} (ds : List DistR)
    (h : l ∈ ds.foldr (fun d acc => emitDistLines d ++ acc) []) :
    ∃ d, d ∈ ds ∧ l ∈ emitDistLines d := by
  induction ds with
  | nil => simp at h
  | cons d ds ih =>
    rw [List.foldr_cons] at h
    rcases List.mem_append.mp h with h1 | h1
    · exact ⟨d, List.mem_cons_self d ds, h1⟩
    · obtain ⟨d2, hd2, hl2⟩ := ih h1
      exact ⟨d2, List.mem_cons_of_mem d hd2, hl2⟩

/-- A whitespace character is not in a whitespace-free string. -/
lemma not_mem_of_all_nonWS (ch : Char) (hch : isGoWS ch = true) {l : Str}
    (h : l.all (fun c => !isGoWS c) = true) : ch ∉ l := by
  intro hm
  rw [List.all_eq_true] at h
  have h2 := h ch hm
  simp [hch] at h2

/-- Every line emitted for a well-formed record is newline-free. -/
lemma noNL_emitDistLines (d : DistR) (hwf : WFdist d) :
    ∀ l ∈ emitDistLines d, '\n' ∉ l := by
  obtain ⟨⟨_, hnall⟩, ⟨_, hpn, _⟩, hpv, hrv, _, _⟩ := id hwf
  rw [emitDistLines_eq d hwf]
  intro l hl
  simp only [List.mem_cons, List.mem_append] at hl
  rcases hl with h | h | h
  · subst h
    simp only [List.mem_append]
    rintro (h2 | h2)
    · revert h2; decide
    · exact not_mem_of_all_nonWS '\n' (by decide) hnall h2
  · subst h
    simp only [List.mem_append]
    rintro (h2 | h2)
    · revert h2; decide
    · exact hpn h2
  · rcases h with h | h
    · rcases hx : d.provides with _ | _
      · rw [hx] at h; simp at h
      · rw [if_neg (by rw [hx]; simp)] at h
        rcases List.mem_cons.mp h with h2 | h2
        · subst h2; decide
        · obtain ⟨p, hpm, hpe⟩ := List.mem_map.mp h2
          subst hpe
          have hw := hpv p hpm
          simp only [entryLine, List.mem_append, List.mem_cons]
          rintro ((h3 | h3) | h3)
          · revert h3; decide
          · exact not_mem_of_all_nonWS '\n' (by decide) hw.1.2 h3
          · rcases h3 with h3 | h3
            · exact absurd h3.symm (by decide)
            · exact hw.2.2.1 h3
    · rcases hx : d.requirements with _ | _
      · rw [hx] at h; simp at h
      · rw [if_neg (by rw [hx]; simp)] at h
        rcases List.mem_cons.mp h with h2 | h2
        · subst h2; decide
        · obtain ⟨p, hpm, hpe⟩ := List.mem_map.mp h2
          subst hpe
          have hw := hrv p hpm
          simp only [entryLine, List.mem_append, List.mem_cons]
          rintro ((h3 | h3) | h3)
          · revert h3; decide
          · exact not_mem_of_all_nonWS '\n' (by decide) hw.1.2 h3
          · rcases h3 with h3 | h3
            · exact absurd h3.symm (by decide)
            · exact hw.2.2.2.1 h3

/-- Splitting the joined lines at newlines recovers the lines (plus the
final empty fragment after the trailing newline). -/
lemma splitLinesC_joinLines (ls : List Str) (h : ∀ l ∈ ls, '\n' ∉ l) :
    splitLinesC (joinLines ls) = ls ++ [[]] := by
  induction ls with
  | nil => rfl
  | cons l ls ih =>
    unfold splitLinesC joinLines
    rw [List.foldr_cons,
      splitOnC_append_sep '\n' l _ (h l (List.mem_cons_self l ls))]
    have := ih (fun x hx => h x (List.mem_cons_of_mem l hx))
    unfold splitLinesC joinLines at this
    rw [this, List.cons_append]

/-- A sorted record whose source tag and non-normalized constraint are lost
by the emitter. -/
def dC3x : DistR :=
  ⟨s2l "Foo", s2l "F/FO/FOO/Foo-1.0.tar.gz",
    [(s2l "Foo", s2l "1.0")], [(s2l "Bar", s2l ">= 2.0")], s2l "cpan"⟩

/-- A well-formed record already in the emitter's normal form. -/
def dC3w : DistR :=
  ⟨s2l "Foo", s2l "F/FO/FOO/Foo-1.0.tar.gz",
    [(s2l "Foo", s2l "1.0")], [(s2l "Bar", s2l "2.0")], []⟩

/-- C3 (counterexample): the snapshot round trip is not the identity on
every canonically sorted list of records: a record carrying a source tag
(or a constraint the emitter normalizes) is not returned exactly. -/
theorem parse_emitText_counterexample :
    List.Pairwise (fun a b => ltStr a.name b.name = true) [dC3x] ∧
    parseText (emitText [dC3x]) ≠ [dC3x] :=
  ⟨by simp, by decide⟩

/-- C3 (amended): for a canonically sorted list of well-formed records —
nonempty whitespace-free names, nonempty pathnames, fields free of `\n`
and `\r`, nonempty whitespace-free module keys, nonempty provides
versions, requirement constraints fixed by the emitter's normalizer —
parsing the emitted snapshot text returns the records exactly, except
that every source tag is cleared:
`parse(emit(S)) = map eraseSource S`. -/
theorem parse_emitText (ds : List DistR)
    (hsorted : List.Pairwise (fun a b => ltStr a.name b.name = true) ds)
    (hwf : ∀ d ∈ ds, WFdist d) :
    parseText (emitText ds) = ds.map eraseSource := by
  have hsd : sortDists ds = ds := sortDists_pairwise_id ds hsorted
  have hlines : ∀ l ∈ emitLines ds, '\n' ∉ l := by
    intro l hl
    unfold emitLines at hl
    rw [hsd] at hl
    rcases List.mem_append.mp hl with h | h
    · rcases List.mem_cons.mp h with h2 | h2
      · subst h2; decide
      · rcases List.mem_cons.mp h2 with h3 | h3
        · subst h3; decide
        · simp at h3
    · obtain ⟨d, hd, hld⟩ := mem_emit_foldr ds h
      exact noNL_emitDistLines d (hwf d hd) l hld
  unfold parseText emitText
  rw [splitLinesC_joinLines (emitLines ds) hlines]
  unfold parseLines
  rw [List.foldl_append]
  dsimp only
  rw [show List.foldl parseLine
      (List.foldl parseLine ⟨[], none, SecR.noSec⟩ (emitLines ds)) [([] : Str)] =
      List.foldl parseLine ⟨[], none, SecR.noSec⟩ (emitLines ds) from rfl]
  unfold emitLines
  rw [hsd, List.foldl_append]
  rw [show List.foldl parseLine ⟨[], none, SecR.noSec⟩ headerLines =
      (⟨[], none, SecR.noSec⟩ : PStateR) from rfl]
  have := parse_emit_aux ds hwf [] none SecR.noSec
  simpa [flushCur] using this

/-- C3 (witness): the amended round trip at a concrete sorted well-formed
record. -/
theorem parse_emitText_witness :
    (List.Pairwise (fun a b => ltStr a.name b.name = true) [dC3w] ∧
      ∀ d ∈ [dC3w], WFdist d) ∧
    parseText (emitText [dC3w]) = [dC3w].map eraseSource := by
  have h1 : List.Pairwise (fun a b => ltStr a.name b.name = true) [dC3w] := by
    simp
  have h2 : ∀ d ∈ [dC3w], WFdist d := by
    intro d hd
    rcases List.mem_singleton.mp hd with h
    subst h
    unfold WFdist goodKey
    decide
  exact ⟨⟨h1, h2⟩, parse_emitText [dC3w] h1 h2⟩

end Yacm
